import Mathlib

/-!
# Evergreen: the interned string of `evglib/include/evergreen/string/ImString.h`

A shallow embedding of `evg::ImString`, its map values `ImString::Elem` and its
pool `ImString::Manager`, followed by theorems about them.

Conventions of the embedding.

* Memory is explicit.  A `Heap` is the list of character arrays that exist
  (string literals and the arrays obtained from `new Char[n]`), each cell either
  holding a character or being indeterminate, together with the number of
  characters `new` can still hand out.  A `Ptr` is an array number and an
  offset.  Reading an indeterminate cell or touching a cell outside its array
  has no defined behaviour in C++; the embedding returns `Res.undefined` there.
* A C++ call is a function from the state before the call to a `Res`: the
  normal return `ok` with the value and the state after, `badAlloc` when
  `std::bad_alloc` leaves the call (with the state at that moment), or
  `undefined`.
* `std::map<Hash, Elem>` is the list of its nodes in ascending key order.  The
  address of a mapped value (`&it->second`, an `Elem*`) is `ElemPtr.node key`:
  nodes of a `std::map` never move and this header never erases one.
* `Size` is an unsigned machine word in the source, taken as 64 bits wide:
  `++refs` and `--refs` on the counter `std::atomic<Size> refs` wrap at
  `sizeModulus`.
* The locks (`m_strings`) guard the sequential code paths embedded here and do
  not appear in the state.  Where threads matter (`Shared`), a run is an
  interleaving of the steps the locks make indivisible: the probe under the
  shared lock, the `emplace` under the exclusive lock, the atomic `++refs`.
* Objects made by `new Elem` outside the map are kept in a list `E`, in the order
  of their creation; `ElemPtr.obj i` is the address of the one number `i`.
-/

namespace evg

/-- Modelled from the spec: the type `Hash` of `evergreen/common/types.h`, which is
not among the sources; an unsigned integer. -/
abbrev Hash := Nat

/-- Modelled from the spec: the type `Size` of `evergreen/common/types.h`, which is
not among the sources; an unsigned integer. -/
abbrev Size := Nat

/-- Modelled from the spec: the character type `Char` / `CChar` of
`evergreen/common/types.h`, which is not among the sources; a character code. -/
abbrev CChar := Nat

/-- Address of a character: the array it lives in and the offset inside it. -/
structure Ptr where
  block : Nat
  off : Nat
  deriving DecidableEq, Repr

/-- Pointer arithmetic `p + n`. -/
def Ptr.add (p : Ptr) (n : Nat) : Ptr := { block := p.block, off := p.off + n }

/-- The character arrays that exist, and how many characters `new` can still give. -/
structure Heap where
  blocks : List (List (Option CChar))
  avail : Nat
  deriving DecidableEq, Repr

/-- Result of running a piece of C++ from a state of type `σ`. -/
inductive Res (σ α : Type) where
  | ok (val : α) (st : σ)
  | badAlloc (st : σ)
  | undefined
  deriving DecidableEq, Repr

/-- The expression `new Char[n]`: a fresh array of `n` indeterminate characters, or
`none` when the allocation fails (`std::bad_alloc`). -/
def Heap.newArray (H : Heap) (n : Size) : Option (Ptr × Heap) :=
  if n ≤ H.avail then
    some ({ block := H.blocks.length, off := 0 },
          { blocks := H.blocks ++ [List.replicate n none], avail := H.avail - n })
  else none

/-- The read `*p`: `none` when the cell does not exist or is indeterminate. -/
def Heap.read (H : Heap) (p : Ptr) : Option CChar :=
  match H.blocks[p.block]? with
  | some b => (b[p.off]?).join
  | none => none

/-- The store `*p = c`: `none` when the cell does not exist. -/
def Heap.write (H : Heap) (p : Ptr) (c : CChar) : Option Heap :=
  match H.blocks[p.block]? with
  | some b =>
    if p.off < b.length then
      some { blocks := H.blocks.set p.block (b.set p.off (some c)), avail := H.avail }
    else none
  | none => none

/-- The characters of the range `[p, p + n)`, when all of them can be read. -/
def Heap.readN (H : Heap) (p : Ptr) : Nat → Option (List CChar)
  | 0 => some []
  | n + 1 =>
    match H.read p with
    | none => none
    | some c =>
      match H.readN (p.add 1) n with
      | none => none
      | some cs => some (c :: cs)

/-- The call `std::copy(first, first + n, dest)`: one read and one store per
character, front to back. -/
def stdCopy (H : Heap) (first : Ptr) : Nat → Ptr → Option Heap
  | 0, _ => some H
  | n + 1, dest =>
    match H.read first with
    | none => none
    | some c =>
      match H.write dest c with
      | none => none
      | some H1 => stdCopy H1 (first.add 1) n (dest.add 1)

/-- Release of the array `p` points into (`delete p`): its cells stop existing and
their number is available to `new` again. -/
def Heap.delete (H : Heap) (p : Ptr) : Option Heap :=
  match H.blocks[p.block]? with
  | some b =>
    if p.off = 0 then
      some { blocks := H.blocks.set p.block [], avail := H.avail + b.length }
    else none
  | none => none

/-- Every array of `H` is still there, unchanged, in `H1`. -/
def Heap.Extends (H H1 : Heap) : Prop :=
  ∀ (i : Nat) (b : List (Option CChar)), H.blocks[i]? = some b → H1.blocks[i]? = some b

/-- Modelled from the spec: the class `StringViewHash` of
`evergreen/string/StringView.h`, which is not among the sources.  As `ImString.h`
uses it: a view of `size()` characters starting at `data().begin_raw` with a cached
`hash()`; `StringViewHash(mem, size, hash)` is the structure constructor. -/
structure StringViewHash where
  data : Ptr
  size : Size
  hash : Hash
  deriving DecidableEq, Repr

/-- The characters a view shows in a heap. -/
def StringViewHash.bytes (H : Heap) (s : StringViewHash) : Option (List CChar) :=
  H.readN s.data s.size

/-- Value of a default-constructed `std::atomic<Size>`: `Elem` declares
`std::atomic<Size> refs;` without an initialiser, its constructor names only
`owns` in the initialiser list and never assigns `refs`.  Since C++20 such an
atomic is value-initialised (zero); before C++20 the value is indeterminate. -/
def atomicDefault : Size := 0

/-- Class `ImString::Elem`: the values kept in the map. -/
structure Elem where
  refs : Size
  owns : Bool
  string : StringViewHash
  deriving DecidableEq, Repr

/-- Constructor `Elem(const StringViewHash _string, const bool copy)`. -/
def Elem.ctor (H : Heap) (_string : StringViewHash) (copy : Bool) : Res Heap Elem :=
  if copy then
    match H.newArray (_string.size + 1) with
    | none => .badAlloc H
    | some (mem, H1) =>
      match stdCopy H1 _string.data _string.size mem with
      | none => .undefined
      | some H2 =>
        match H2.write (mem.add _string.size) 0 with
        | none => .undefined
        | some H3 =>
          .ok { refs := atomicDefault, owns := copy,
                string := { data := mem, size := _string.size, hash := _string.hash } } H3
  else
    .ok { refs := atomicDefault, owns := copy, string := _string } H

/-- Modelled from the spec: the number of values of the unsigned word `Size` of
`evergreen/common/types.h`, which is not among the sources: `2 ^ 64`, so that
`std::numeric_limits<Size>::max()` is `sizeModulus - 1`. -/
def sizeModulus : Nat := 18446744073709551616

/-- Member `Elem::addRef`: `++refs` on the unsigned word, which wraps from
`std::numeric_limits<Size>::max()` to 0. -/
def Elem.addRef (e : Elem) : Elem := { e with refs := (e.refs + 1) % sizeModulus }

/-- Member `Elem::subRef`: `--refs` on the unsigned word, which wraps from 0 to
`std::numeric_limits<Size>::max()`. -/
def Elem.subRef (e : Elem) : Elem :=
  { e with refs := (e.refs + (sizeModulus - 1)) % sizeModulus }

/-- Destructor `~Elem()`: releases the character array when `owns` is set. -/
def Elem.dtor (H : Heap) (e : Elem) : Option Heap :=
  if e.owns then H.delete e.string.data else some H

/-- An `Elem*`: `node key` is the address of the mapped value of the node of
`Manager::strings` with that key, `obj id` the address of the object number `id`
made by a `new Elem` expression, `null` the null pointer. -/
inductive ElemPtr where
  | node (key : Hash)
  | obj (id : Nat)
  | null
  deriving DecidableEq, Repr

/-- The container `std::map<Hash, Elem>`: its nodes, in ascending key order. -/
structure Map where
  nodes : List (Hash × Elem)
  deriving DecidableEq, Repr

/-- Search for the node with key `k` among the nodes. -/
def Map.lookup (k : Hash) : List (Hash × Elem) → Option (Hash × Elem)
  | [] => none
  | n :: t => if n.1 = k then some n else Map.lookup k t

/-- Member `std::map::find`: the node with that key, `none` for `end()`. -/
def Map.find (m : Map) (k : Hash) : Option (Hash × Elem) :=
  Map.lookup k m.nodes

/-- Linking of a new node at its place in the key order. -/
def Map.link (k : Hash) (e : Elem) : List (Hash × Elem) → List (Hash × Elem)
  | [] => [(k, e)]
  | n :: t => if k < n.1 then (k, e) :: n :: t else n :: Map.link k e t

/-- Member `std::map::emplace(std::piecewise_construct, key, (str, copy))`.  The
mapped `Elem` is constructed from `(str, copy)` first; when the constructor
throws, the exception leaves `emplace` and the map is as before.  When a node
with an equal key exists, the new `Elem` is destroyed again and the result is
that node with `false`; otherwise the new node is linked and the result is it
with `true`. -/
def Map.emplace (m : Map) (H : Heap) (key : Hash) (str : StringViewHash) (copy : Bool) :
    Res (Map × Heap) (Hash × Bool) :=
  match Elem.ctor H str copy with
  | .badAlloc H1 => .badAlloc (m, H1)
  | .undefined => .undefined
  | .ok e H1 =>
    match m.find key with
    | some n =>
      match Elem.dtor H1 e with
      | none => .undefined
      | some H2 => .ok (n.1, false) (m, H2)
    | none => .ok (key, true) ({ nodes := Map.link key e m.nodes }, H1)

/-- Application of `f` to the mapped value an iterator with key `k` designates. -/
def Map.modify (k : Hash) (f : Elem → Elem) : List (Hash × Elem) → List (Hash × Elem)
  | [] => []
  | n :: t => if n.1 = k then (n.1, f n.2) :: t else n :: Map.modify k f t

/-- Class `ImString::Manager` (the mutex `m_strings` is not part of the state). -/
structure Manager where
  strings : Map
  nullString : ElemPtr
  deriving DecidableEq, Repr

/-- Modelled from the spec: what `Manager()` takes from headers that are not among
the sources (`evergreen/common/types.h`, `evergreen/string/StringView.h`): the
value `djb2` of `hashes::djb2<Hash>("")`, and the view `StringViewHash("")` of the
empty literal, which starts at `data`, shows no character and caches `hash`. -/
structure EmptyLiteral where
  djb2 : Hash
  data : Ptr
  hash : Hash
  deriving DecidableEq, Repr

/-- The view `StringViewHash("")`. -/
def EmptyLiteral.view (l : EmptyLiteral) : StringViewHash :=
  { data := l.data, size := 0, hash := l.hash }

/-- Modelled from the spec: the two hashes of the empty string that `Manager()` takes
from `evergreen/common/types.h` and `evergreen/string/StringView.h`, which are not
among the sources.  The spec has one hash, `hash(bytes) -> HashValue`, pure and
deterministic, equal contents giving the same value; with `hashOf` that function,
`hashes::djb2<Hash>("")` and the hash cached by `StringViewHash("")` are both its
value at the empty content.  The literal is at `data`. -/
def EmptyLiteral.ofHash (hashOf : List CChar → Hash) (data : Ptr) : EmptyLiteral :=
  { djb2 := hashOf [], data := data, hash := hashOf [] }

/-- Constructor `Manager()`: emplaces `Elem(StringViewHash(""))` (so `copy` has its
default, `true`) under `hashes::djb2<Hash>("")` into the empty map and keeps the
address of the mapped value in `nullString`. -/
def Manager.ctor (H : Heap) (l : EmptyLiteral) : Res Heap Manager :=
  match Map.emplace { nodes := [] } H l.djb2 l.view true with
  | .badAlloc st => .badAlloc st.2
  | .undefined => .undefined
  | .ok r st => .ok { strings := st.1, nullString := .node r.1 } st.2

/-- Member `Manager::has`. -/
def Manager.has (M : Manager) (hash : Hash) : Bool :=
  (M.strings.find hash).isSome

/-- Member `Manager::find`. -/
def Manager.find (M : Manager) (hash : Hash) : Option (Hash × Elem) :=
  M.strings.find hash

/-- Member `Manager::insert(const StringViewHash str, const bool copy)`. -/
def Manager.insert (M : Manager) (H : Heap) (str : StringViewHash) (copy : Bool) :
    Res (Manager × Heap) ElemPtr :=
  match M.find str.hash with
  | none =>
    match M.strings.emplace H str.hash str copy with
    | .badAlloc st => .badAlloc ({ M with strings := st.1 }, st.2)
    | .undefined => .undefined
    | .ok r st => .ok (.node r.1) ({ M with strings := st.1 }, st.2)
  | some n =>
    .ok (.node n.1) ({ M with strings := { nodes := Map.modify n.1 Elem.addRef M.strings.nodes } }, H)

/-- The entry of the table an `Elem*` points to; `none` when the pointer is not the
address of an entry of the table. -/
def Manager.elem (M : Manager) : ElemPtr → Option Elem
  | .node k => (M.strings.find k).map Prod.snd
  | .obj _ => none
  | .null => none

/-- Class `ImString`: its one data member, `Elem* source`. -/
structure ImString where
  source : ElemPtr
  deriving DecidableEq, Repr

/-- Constructor `ImString(const StringViewHash str, bool copy)`, on the
`defaultManager`.  The constructors from a `[begin, end)` pair, from a C string and
from a `std::string` make the same call with the view of their argument. -/
def ImString.ofView (M : Manager) (H : Heap) (str : StringViewHash) (copy : Bool) :
    Res (Manager × Heap) ImString :=
  match M.insert H str copy with
  | .badAlloc st => .badAlloc st
  | .undefined => .undefined
  | .ok p st => .ok { source := p } st

/-- Copy constructor of `ImString`.  The class declares none, so it is the implicit
one: the member `source` is copied and nothing else is touched. -/
def ImString.copyCtor (M : Manager) (a : ImString) : ImString × Manager :=
  ({ source := a.source }, M)

/-- Destructor of `ImString`.  The class declares none, so it is the implicit one:
the member `source`, a plain pointer, is dropped and nothing else is touched. -/
def ImString.dtor (M : Manager) (_a : ImString) : Manager := M

/-- Member `ImString::size`: `source->string.size()`. -/
def ImString.size (M : Manager) (a : ImString) : Option Size :=
  (M.elem a.source).map fun e => e.string.size

/-- Member `ImString::data`: `source->string.data()`, whose first character is
returned here; the range ends `size()` characters later. -/
def ImString.data (M : Manager) (a : ImString) : Option Ptr :=
  (M.elem a.source).map fun e => e.string.data

/-- The characters a handle exposes: those of `[data(), data() + size())`. -/
def ImString.chars (M : Manager) (H : Heap) (a : ImString) : Option (List CChar) :=
  (M.elem a.source).bind fun e => e.string.bytes H

/-- A program state: the `defaultManager`, the memory and the `ImString` objects
that are alive. -/
structure World where
  manager : Manager
  heap : Heap
  handles : List ImString
  deriving DecidableEq, Repr

/-- What a program does with handles: construct one from content, copy the
handle number `i`, or end the lifetime of the handle number `i`. -/
inductive Op where
  | construct (str : StringViewHash) (copy : Bool)
  | copy (i : Nat)
  | destroy (i : Nat)
  deriving DecidableEq, Repr

/-- One operation.  A constructor that throws leaves no handle behind; `none` when
the operation has no defined behaviour or names a handle that is not alive. -/
def World.step (W : World) : Op → Option World
  | .construct str copy =>
    match ImString.ofView W.manager W.heap str copy with
    | .ok h st => some { manager := st.1, heap := st.2, handles := W.handles ++ [h] }
    | .badAlloc st => some { manager := st.1, heap := st.2, handles := W.handles }
    | .undefined => none
  | .copy i =>
    match W.handles[i]? with
    | some h =>
      some { manager := (h.copyCtor W.manager).2, heap := W.heap,
             handles := W.handles ++ [(h.copyCtor W.manager).1] }
    | none => none
  | .destroy i =>
    match W.handles[i]? with
    | some h =>
      some { manager := h.dtor W.manager, heap := W.heap, handles := W.handles.eraseIdx i }
    | none => none

/-- A sequence of operations, left to right. -/
def World.run (W : World) : List Op → Option World
  | [] => some W
  | op :: ops =>
    match W.step op with
    | none => none
    | some W1 => W1.run ops

/-- The program state right after the `defaultManager` has been constructed. -/
def World.fresh (H : Heap) (l : EmptyLiteral) : Option World :=
  match Manager.ctor H l with
  | .ok M H1 => some { manager := M, heap := H1, handles := [] }
  | _ => none

/-- Number of live handles whose `source` is `p`. -/
def World.liveRefs (W : World) (p : ElemPtr) : Nat :=
  W.handles.countP fun h => h.source = p

/-- The keys of the map, in node order. -/
def Map.keys (m : Map) : List Hash := m.nodes.map Prod.fst

/-- Number of nodes of the map with key `k`. -/
def Map.keyCount (m : Map) (k : Hash) : Nat := m.keys.count k

/-- Class invariant of `std::map`: the keys ascend strictly, so no key occurs twice. -/
def Map.Ordered (m : Map) : Prop := m.keys.Pairwise (· < ·)

instance (m : Map) : Decidable m.Ordered :=
  inferInstanceAs (Decidable (m.keys.Pairwise (· < ·)))

/-- Resources with which `Manager::insert(str, copy)` returns normally: the key is
in the map (no `Elem` is built), or the content is borrowed, or the content can be
read and `new` can give the `size() + 1` characters of the copy. -/
def Manager.insertable (M : Manager) (H : Heap) (str : StringViewHash) (copy : Bool) : Prop :=
  M.has str.hash = true ∨ copy = false ∨ ((str.bytes H).isSome ∧ str.size + 1 ≤ H.avail)

/-- The value and the state of a normal return. -/
def Res.returned {σ α : Type} : Res σ α → Option (α × σ)
  | .ok val st => some (val, st)
  | _ => none

/-- The `refs` counter of the `Elem` an `Elem*` points to. -/
def Manager.refsAt (M : Manager) (p : ElemPtr) : Option Size :=
  (M.elem p).map Elem.refs

/-- A small memory for the examples: the literals `""`, `"cat"`, `"ab"` and `"bA"`,
and 64 characters left for `new`. -/
def sampleHeap : Heap :=
  { blocks := [[some 0], [some 99, some 97, some 116, some 0],
               [some 97, some 98, some 0], [some 98, some 65, some 0]],
    avail := 64 }

/-- The empty literal of the examples, with the hash `djb2` gives the empty string. -/
def sampleEmpty : EmptyLiteral := { djb2 := 5381, data := { block := 0, off := 0 }, hash := 5381 }

/-- The view of `"cat"` in `sampleHeap`, with its `djb2` hash. -/
def viewCat : StringViewHash :=
  { data := { block := 1, off := 0 }, size := 3, hash := 193488125 }

/-- The view of `"ab"` in `sampleHeap`, with its `djb2` hash. -/
def viewAb : StringViewHash :=
  { data := { block := 2, off := 0 }, size := 2, hash := 5863208 }

/-- The view of `"bA"` in `sampleHeap`; `djb2` gives it the hash of `"ab"`
(`33 * 97 + 98 = 33 * 98 + 65`). -/
def viewBA : StringViewHash :=
  { data := { block := 3, off := 0 }, size := 2, hash := 5863208 }

/-- The program state of the examples right after `defaultManager` is constructed. -/
def sampleWorld : World :=
  { manager :=
      { strings :=
          { nodes :=
              [(5381,
                { refs := 0, owns := true,
                  string := { data := { block := 4, off := 0 }, size := 0, hash := 5381 } })] },
        nullString := .node 5381 },
    heap := { blocks := sampleHeap.blocks ++ [[some 0]], avail := 63 },
    handles := [] }

/-- The program state of the examples after a handle of `"ab"` (borrowed) was
constructed, copied, and the first of the two handles destroyed. -/
def sampleWorldAb : World :=
  { manager :=
      { strings :=
          { nodes :=
              [(5381,
                { refs := 0, owns := true,
                  string := { data := { block := 4, off := 0 }, size := 0, hash := 5381 } }),
               (5863208,
                { refs := 0, owns := false,
                  string := { data := { block := 2, off := 0 }, size := 2, hash := 5863208 } })] },
        nullString := .node 5381 },
    heap := { blocks := sampleHeap.blocks ++ [[some 0]], avail := 63 },
    handles := [{ source := .node 5863208 }] }

/-- The `Elem` an `Elem*` points to, among the entries of the table and the objects
`E` made by `new Elem`; `none` for the null pointer and for a pointer to nothing. -/
def Manager.deref (M : Manager) (E : List Elem) : ElemPtr → Option Elem
  | .node k => (M.strings.find k).map Prod.snd
  | .obj i => E[i]?
  | .null => none

/-- The call `Manager::has(hash)` with the state it leaves: its body takes the
shared lock and compares `strings.find(hash)` with `strings.end()`; it stores
nothing. -/
def Manager.hasCall (M : Manager) (H : Heap) (hash : Hash) : Res (Manager × Heap) Bool :=
  .ok (M.has hash) (M, H)

/-- The call `Manager::find(hash)` with the state it leaves: its body takes the
shared lock and returns `strings.find(hash)`; it stores nothing. -/
def Manager.findCall (M : Manager) (H : Heap) (hash : Hash) :
    Res (Manager × Heap) (Option (Hash × Elem)) :=
  .ok (M.find hash) (M, H)

/-- Member `ImString::operator<`:
`source->string.hash() < rhs.source->string.hash()`; `none` when one of the two
`source` pointers points to no `Elem`. -/
def ImString.lt (M : Manager) (E : List Elem) (a rhs : ImString) : Option Bool :=
  match M.deref E a.source, M.deref E rhs.source with
  | some ea, some eb => some (decide (ea.string.hash < eb.string.hash))
  | _, _ => none

/-- First step of `Manager::insert`, under the shared lock:
`auto&& exists = find(str.hash())`. -/
def Manager.probe (M : Manager) (str : StringViewHash) : Option (Hash × Elem) :=
  M.find str.hash

/-- Second step of `Manager::insert` after a probe that found nothing, under the
exclusive lock: `return &strings.emplace(..., str.hash(), (str, copy)).first->second`. -/
def Manager.commit (M : Manager) (H : Heap) (str : StringViewHash) (copy : Bool) :
    Res (Manager × Heap) ElemPtr :=
  match M.strings.emplace H str.hash str copy with
  | .badAlloc st => .badAlloc ({ M with strings := st.1 }, st.2)
  | .undefined => .undefined
  | .ok r st => .ok (.node r.1) ({ M with strings := st.1 }, st.2)

/-- Second step of `Manager::insert` after a probe that found the node with key `k`:
`exists->second.addRef(); return &exists->second`. -/
def Manager.bump (M : Manager) (H : Heap) (k : Hash) : Res (Manager × Heap) ElemPtr :=
  .ok (.node k)
    ({ M with strings := { nodes := Map.modify k Elem.addRef M.strings.nodes } }, H)

/-- Where a thread that runs `Manager::insert(str, copy)` stands: before the probe,
after a probe that found nothing, after a probe that found the node with a key,
returned with a pointer, or left by `std::bad_alloc`. -/
inductive Pc where
  | start
  | missed
  | found (key : Hash)
  | returned (r : ElemPtr)
  | threw
  deriving DecidableEq, Repr

/-- A thread that runs `Manager::insert(str, copy)`. -/
structure Call where
  str : StringViewHash
  copy : Bool
  pc : Pc
  deriving DecidableEq, Repr

/-- The pool and the memory shared by the threads, and the threads. -/
structure Shared where
  manager : Manager
  heap : Heap
  calls : List Call
  deriving DecidableEq, Repr

/-- The next step of thread `i`.  The probe runs under the shared lock and the
`emplace` under the exclusive lock, so each is one step; `++refs` is atomic.
`none` when the thread does not exist, has finished, or its step has no defined
behaviour. -/
def Shared.step (S : Shared) (i : Nat) : Option Shared :=
  match S.calls[i]? with
  | none => none
  | some c =>
    match c.pc with
    | .start =>
      match S.manager.probe c.str with
      | none =>
        some { manager := S.manager, heap := S.heap,
               calls := S.calls.set i { str := c.str, copy := c.copy, pc := .missed } }
      | some n =>
        some { manager := S.manager, heap := S.heap,
               calls := S.calls.set i { str := c.str, copy := c.copy, pc := .found n.1 } }
    | .missed =>
      match S.manager.commit S.heap c.str c.copy with
      | .ok r st =>
        some { manager := st.1, heap := st.2,
               calls := S.calls.set i { str := c.str, copy := c.copy, pc := .returned r } }
      | .badAlloc st =>
        some { manager := st.1, heap := st.2,
               calls := S.calls.set i { str := c.str, copy := c.copy, pc := .threw } }
      | .undefined => none
    | .found k =>
      match S.manager.bump S.heap k with
      | .ok r st =>
        some { manager := st.1, heap := st.2,
               calls := S.calls.set i { str := c.str, copy := c.copy, pc := .returned r } }
      | _ => none
    | .returned _ => none
    | .threw => none

/-- An interleaving: the threads that take a step, in order. -/
def Shared.run (S : Shared) : List Nat → Option Shared
  | [] => some S
  | i :: is =>
    match S.step i with
    | none => none
    | some S1 => S1.run is

/-- The threads of `calls` that have returned a pointer. -/
def Shared.returnedPtrs (S : Shared) : List ElemPtr :=
  S.calls.filterMap fun c =>
    match c.pc with
    | .returned r => some r
    | _ => none

/-- Constructor `ImString() = default`: it stores nothing in `source`.  After
`ImString a;` the member is an indeterminate pointer, after the value-initialisation
`ImString()` it is null; `junk` is that pointer. -/
def ImString.default (junk : ElemPtr) : ImString := { source := junk }

/-- Constructor `ImString(Elem* const _source)`. -/
def ImString.ofElem (_source : ElemPtr) : ImString := { source := _source }

/-- Constructor `ImString(CChar* const _begin, CChar* const _end, bool copy)`:
`source = defaultManager.insert(StringViewHash(_begin, _end), copy)`.  The view
`StringViewHash(_begin, _end)` is built by `StringView.h`, which is not among the
sources, and is taken as `range`. -/
def ImString.ofRange (M : Manager) (H : Heap) (range : StringViewHash) (copy : Bool) :
    Res (Manager × Heap) ImString :=
  match M.insert H range copy with
  | .badAlloc st => .badAlloc st
  | .undefined => .undefined
  | .ok p st => .ok { source := p } st

/-- Constructor `ImString(CChar* const str, const Bool copy)`:
`source = defaultManager.insert(str, copy)`.  The conversion of the C string to a
`StringViewHash` is built by `StringView.h`, which is not among the sources, and is
taken as `cstr`. -/
def ImString.ofCStr (M : Manager) (H : Heap) (cstr : StringViewHash) (copy : Bool) :
    Res (Manager × Heap) ImString :=
  match M.insert H cstr copy with
  | .badAlloc st => .badAlloc st
  | .undefined => .undefined
  | .ok p st => .ok { source := p } st

/-- Constructor `ImString(const std::string& str)`:
`source = defaultManager.insert(str.data(), true)`.  The conversion of `str.data()`
to a `StringViewHash` is built by `StringView.h`, which is not among the sources,
and is taken as `chars`. -/
def ImString.ofStdString (M : Manager) (H : Heap) (chars : StringViewHash) :
    Res (Manager × Heap) ImString :=
  match M.insert H chars true with
  | .badAlloc st => .badAlloc st
  | .undefined => .undefined
  | .ok p st => .ok { source := p } st

/-- Modelled from the spec: the constructor `StringViewHash(mem, size)` of
`evergreen/string/StringView.h`, which is not among the sources: the view of `size`
characters from `mem` with the hash of those characters; `hashOf` is the hash
function, a pure function of the characters. -/
def StringViewHash.ofData (hashOf : List CChar → Hash) (H : Heap) (mem : Ptr) (size : Size) :
    Option StringViewHash :=
  (H.readN mem size).map fun bs => { data := mem, size := size, hash := hashOf bs }

/-- The first three statements of `ImString::operator+=`, for the entries `ea` of
`*this` and `eb` of `rhs`: `new Char[this->size() + rhs.size()]` and the two calls
of `std::copy`.  The value is `mem`. -/
def ImString.concatBuffer (H : Heap) (ea eb : Elem) : Res Heap Ptr :=
  match H.newArray (ea.string.size + eb.string.size) with
  | none => .badAlloc H
  | some (mem, H1) =>
    match stdCopy H1 ea.string.data ea.string.size mem with
    | none => .undefined
    | some H2 =>
      match stdCopy H2 eb.string.data eb.string.size (mem.add ea.string.size) with
      | none => .undefined
      | some H3 => .ok mem H3

/-- The last statement of `ImString::operator+=`:
`source = new Elem(StringViewHash(mem, size), false)`.  The new object joins the
objects `E` made by `new Elem`; the value is the handle with its new `source`. -/
def ImString.assignNewElem (hashOf : List CChar → Hash) (H : Heap) (E : List Elem)
    (mem : Ptr) (size : Size) : Res (Heap × List Elem) ImString :=
  match StringViewHash.ofData hashOf H mem size with
  | none => .undefined
  | some view =>
    match Elem.ctor H view false with
    | .ok e H1 => .ok { source := .obj E.length } (H1, E ++ [e])
    | .badAlloc H1 => .badAlloc (H1, E)
    | .undefined => .undefined

/-- The index of the store `mem[this->size() + rhs.size() + 1] = '\0'` of
`ImString::operator+=`. -/
def ImString.terminatorIndex (ea eb : Elem) : Nat := ea.string.size + eb.string.size + 1

/-- The statements of `ImString::operator+=`, up to its closing brace: the buffer,
the store of the terminator, the new `Elem`.  The value is `*this` as it then is. -/
def ImString.addAssignBody (hashOf : List CChar → Hash) (M : Manager) (H : Heap)
    (E : List Elem) (a rhs : ImString) : Res (Heap × List Elem) ImString :=
  match M.deref E a.source, M.deref E rhs.source with
  | some ea, some eb =>
    match ImString.concatBuffer H ea eb with
    | .badAlloc H1 => .badAlloc (H1, E)
    | .undefined => .undefined
    | .ok mem H3 =>
      match H3.write (mem.add (ImString.terminatorIndex ea eb)) 0 with
      | none => .undefined
      | some H4 =>
        ImString.assignNewElem hashOf H4 E mem (ea.string.size + eb.string.size)
  | _, _ => .undefined

/-- Member `ImString::operator+=`.  It is declared to return an `ImString` and has
no `return` statement: when control reaches its closing brace, the call has no
defined behaviour. -/
def ImString.addAssign (hashOf : List CChar → Hash) (M : Manager) (H : Heap)
    (E : List Elem) (a rhs : ImString) : Res (Heap × List Elem) ImString :=
  match ImString.addAssignBody hashOf M H E a rhs with
  | .ok _ _ => .undefined
  | .badAlloc st => .badAlloc st
  | .undefined => .undefined

/-- The hash function `djb2` on character codes, for the examples. -/
def sampleHash (bs : List CChar) : Hash := bs.foldl (fun h c => h * 33 + c) 5381

/-- Two threads about to run `insert("cat", true)` on the pool of `sampleWorld`. -/
def sampleShared : Shared :=
  { manager := sampleWorld.manager, heap := sampleWorld.heap,
    calls := [{ str := viewCat, copy := true, pc := .start },
              { str := viewCat, copy := true, pc := .start }] }

/-- One thread about to run `insert("cat", true)` on the pool of `sampleWorld`. -/
def sampleSharedOne : Shared :=
  { manager := sampleWorld.manager, heap := sampleWorld.heap,
    calls := [{ str := viewCat, copy := true, pc := .start }] }

/-! ## Lemmas: the map -/

theorem Map.lookup_key {k : Hash} {l : List (Hash × Elem)} {n : Hash × Elem}
    (h : Map.lookup k l = some n) : n.1 = k := by
  induction l with
  | nil => simp [Map.lookup] at h
  | cons a t ih =>
    unfold Map.lookup at h
    split at h
    · rename_i hk
      cases h
      exact hk
    · exact ih h

theorem Map.lookup_none_iff {k : Hash} {l : List (Hash × Elem)} :
    Map.lookup k l = none ↔ k ∉ l.map Prod.fst := by
  induction l with
  | nil => simp [Map.lookup]
  | cons a t ih =>
    unfold Map.lookup
    by_cases h : a.1 = k
    · simp [h]
    · simp [h, ih, Ne.symm h]

theorem Map.modify_keys (k : Hash) (f : Elem → Elem) (l : List (Hash × Elem)) :
    (Map.modify k f l).map Prod.fst = l.map Prod.fst := by
  induction l with
  | nil => rfl
  | cons n t ih =>
    unfold Map.modify
    split
    · simp
    · simp [ih]

theorem Map.lookup_modify_self (k : Hash) (f : Elem → Elem) (l : List (Hash × Elem)) :
    Map.lookup k (Map.modify k f l) = (Map.lookup k l).map fun n => (n.1, f n.2) := by
  induction l with
  | nil => rfl
  | cons n t ih =>
    by_cases h : n.1 = k
    · simp [Map.modify, Map.lookup, h]
    · simp [Map.modify, Map.lookup, h, ih]

theorem Map.lookup_modify_ne {k j : Hash} (hne : j ≠ k) (f : Elem → Elem)
    (l : List (Hash × Elem)) : Map.lookup j (Map.modify k f l) = Map.lookup j l := by
  induction l with
  | nil => rfl
  | cons n t ih =>
    by_cases h : n.1 = k
    · have hj : ¬ n.1 = j := fun hj => hne (hj ▸ h)
      have hkj : ¬ k = j := fun e => hne e.symm
      simp [Map.modify, Map.lookup, h, hkj]
    · by_cases hj : n.1 = j
      · have hjk : ¬ j = k := hne
        simp [Map.modify, Map.lookup, hj, hjk]
      · simp [Map.modify, Map.lookup, h, hj, ih]

theorem Map.link_keys_perm (k : Hash) (e : Elem) (l : List (Hash × Elem)) :
    ((Map.link k e l).map Prod.fst).Perm (k :: l.map Prod.fst) := by
  induction l with
  | nil => simp [Map.link]
  | cons n t ih =>
    unfold Map.link
    split
    · simp
    · simp only [List.map_cons]
      exact (List.Perm.cons _ ih).trans (List.Perm.swap _ _ _)

theorem Map.link_ordered (k : Hash) (e : Elem) (l : List (Hash × Elem))
    (hs : (l.map Prod.fst).Pairwise (· < ·)) (hk : k ∉ l.map Prod.fst) :
    ((Map.link k e l).map Prod.fst).Pairwise (· < ·) := by
  induction l with
  | nil => simp [Map.link]
  | cons n t ih =>
    simp only [List.map_cons, List.pairwise_cons, List.mem_cons, not_or] at hs hk
    unfold Map.link
    split
    · rename_i hlt
      simp only [List.map_cons, List.pairwise_cons, List.mem_cons]
      refine ⟨?_, hs.1, hs.2⟩
      rintro x (rfl | hx)
      · exact hlt
      · exact lt_trans hlt (hs.1 x hx)
    · rename_i hge
      simp only [List.map_cons, List.pairwise_cons]
      refine ⟨?_, ih hs.2 hk.2⟩
      intro x hx
      have := (Map.link_keys_perm k e t).mem_iff.mp hx
      rcases List.mem_cons.mp this with rfl | hx
      · exact lt_of_le_of_ne (not_lt.mp hge) (Ne.symm hk.1)
      · exact hs.1 x hx

theorem Map.lookup_link_self (k : Hash) (e : Elem) (l : List (Hash × Elem))
    (hk : Map.lookup k l = none) : Map.lookup k (Map.link k e l) = some (k, e) := by
  induction l with
  | nil => simp [Map.link, Map.lookup]
  | cons n t ih =>
    have hn : ¬ n.1 = k := by
      intro h
      simp [Map.lookup, h] at hk
    have ht : Map.lookup k t = none := by
      simpa [Map.lookup, hn] using hk
    unfold Map.link
    split
    · simp [Map.lookup]
    · simp [Map.lookup, hn, ih ht]

theorem Map.lookup_link_ne {k j : Hash} (hne : j ≠ k) (e : Elem) (l : List (Hash × Elem)) :
    Map.lookup j (Map.link k e l) = Map.lookup j l := by
  induction l with
  | nil => simp [Map.link, Map.lookup, Ne.symm hne]
  | cons n t ih =>
    unfold Map.link
    split
    · simp [Map.lookup, Ne.symm hne]
    · by_cases hj : n.1 = j
      · simp [Map.lookup, hj]
      · simp [Map.lookup, hj, ih]

theorem Map.keyCount_eq_one {m : Map} {k : Hash} {n : Hash × Elem} (ho : m.Ordered)
    (h : m.find k = some n) : m.keyCount k = 1 := by
  have hmem : k ∈ m.keys := by
    by_contra hc
    have := Map.lookup_none_iff.mpr hc
    simp [Map.find] at h
    rw [h] at this
    cases this
  have hnd : m.keys.Nodup := by
    unfold Map.Ordered at ho
    exact ho.imp (fun h => Nat.ne_of_lt h)
  exact List.count_eq_one_of_mem hnd hmem

/-! ## Lemmas: the memory -/

theorem Heap.read_append {H : Heap} {p : Ptr} {c : CChar} (ext : List (List (Option CChar)))
    (a : Nat) (h : H.read p = some c) :
    Heap.read { blocks := H.blocks ++ ext, avail := a } p = some c := by
  unfold Heap.read at h ⊢
  cases hb : H.blocks[p.block]? with
  | none => simp [hb] at h
  | some b =>
    have hlt : p.block < H.blocks.length := by
      rcases List.getElem?_eq_some_iff.mp hb with ⟨hl, _⟩
      exact hl
    simp only [List.getElem?_append_left hlt, hb]
    simpa [hb] using h

theorem Heap.readN_length (H : Heap) :
    ∀ (n : Nat) (p : Ptr) (bs : List CChar), H.readN p n = some bs → bs.length = n := by
  intro n
  induction n with
  | zero => intro p bs h; simp [Heap.readN] at h; simp [← h]
  | succ n ih =>
    intro p bs h
    unfold Heap.readN at h
    cases hr : H.read p with
    | none => simp [hr] at h
    | some c =>
      cases hn : H.readN (p.add 1) n with
      | none => simp [hr, hn] at h
      | some cs =>
        simp only [hr, hn, Option.some.injEq] at h
        subst h
        simp [ih _ _ hn]

theorem stdCopy_fresh (B : List (List (Option CChar))) (av0 : Nat) :
    ∀ (k : Nat) (p : Ptr) (bs : List CChar) (done : List (Option CChar)) (r av : Nat),
      Heap.readN { blocks := B, avail := av0 } p k = some bs →
      stdCopy { blocks := B ++ [done ++ List.replicate (k + r) none], avail := av } p k
          { block := B.length, off := done.length }
        = some { blocks := B ++ [done ++ bs.map some ++ List.replicate r none], avail := av } := by
  intro k
  induction k with
  | zero =>
    intro p bs done r av h
    simp [Heap.readN] at h
    subst h
    simp [stdCopy]
  | succ k ih =>
    intro p bs done r av h
    unfold Heap.readN at h
    cases hr : Heap.read { blocks := B, avail := av0 } p with
    | none => simp [hr] at h
    | some c =>
      cases hn : Heap.readN { blocks := B, avail := av0 } (p.add 1) k with
      | none => simp [hr, hn] at h
      | some cs =>
        simp only [hr, hn, Option.some.injEq] at h
        subst h
        have hr2 := Heap.read_append (H := { blocks := B, avail := av0 })
          [done ++ List.replicate (k + 1 + r) none] av hr
        unfold stdCopy
        simp only [hr2]
        have hw : Heap.write { blocks := B ++ [done ++ List.replicate (k + 1 + r) none], avail := av }
            { block := B.length, off := done.length } c
            = some { blocks := B ++ [(done ++ [some c]) ++ List.replicate (k + r) none],
                     avail := av } := by
          unfold Heap.write
          simp
          have : k + 1 + r = (k + r) + 1 := by omega
          rw [this, List.replicate_succ]
          simp
        simp only [hw]
        have := ih (p.add 1) cs (done ++ [some c]) r av hn
        simp only [List.length_append, List.length_singleton] at this
        simp only [Ptr.add]
        simp only [Ptr.add] at this
        rw [this]
        simp

/-! ## Lemmas: the constructor of `Elem` -/

theorem Heap.readN_block (H : Heap) (b : Nat) :
    ∀ (cs : List CChar) (pre post : List (Option CChar)),
      H.blocks[b]? = some (pre ++ cs.map some ++ post) →
      H.readN { block := b, off := pre.length } cs.length = some cs := by
  intro cs
  induction cs with
  | nil => intro pre post _; rfl
  | cons c cs ih =>
    intro pre post h
    have h2 : H.blocks[b]? = some ((pre ++ [some c]) ++ cs.map some ++ post) := by
      rw [h]; simp
    have := ih (pre ++ [some c]) post h2
    simp only [List.length_append, List.length_singleton] at this
    simp only [List.length_cons, Heap.readN, Ptr.add, this]
    have hr : H.read { block := b, off := pre.length } = some c := by
      have hg : (pre ++ List.map some (c :: cs) ++ post)[pre.length]? = some (some c) := by
        rw [List.append_assoc, List.getElem?_append_right (Nat.le_refl _)]
        simp
      unfold Heap.read
      simp only [h, hg]
      rfl
    simp [hr]

theorem Elem.ctor_copy_ok (H : Heap) (s : StringViewHash) (bs : List CChar)
    (hb : s.bytes H = some bs) (hm : s.size + 1 ≤ H.avail) :
    Elem.ctor H s true
      = .ok { refs := atomicDefault, owns := true,
              string := { data := { block := H.blocks.length, off := 0 }, size := s.size,
                          hash := s.hash } }
            { blocks := H.blocks ++ [bs.map some ++ [some 0]], avail := H.avail - (s.size + 1) } := by
  have hlen : bs.length = s.size := Heap.readN_length H _ _ _ hb
  have hc := stdCopy_fresh H.blocks H.avail s.size s.data bs [] 1 (H.avail - (s.size + 1)) hb
  simp only [List.nil_append, List.length_nil] at hc
  have hw : Heap.write { blocks := H.blocks ++ [bs.map some ++ List.replicate 1 none],
                         avail := H.avail - (s.size + 1) }
      { block := H.blocks.length, off := s.size } 0
      = some { blocks := H.blocks ++ [bs.map some ++ [some 0]],
               avail := H.avail - (s.size + 1) } := by
    unfold Heap.write
    simp [hlen]
  simp only [Elem.ctor, if_true, Heap.newArray, hm, hc, Ptr.add, Nat.zero_add, hw]

theorem Elem.ctor_borrow (H : Heap) (s : StringViewHash) :
    Elem.ctor H s false = .ok { refs := atomicDefault, owns := false, string := s } H := by
  simp [Elem.ctor]

theorem Elem.ctor_badAlloc (H : Heap) (s : StringViewHash) (hm : H.avail < s.size + 1) :
    Elem.ctor H s true = .badAlloc H := by
  have : ¬ s.size + 1 ≤ H.avail := Nat.not_le.mpr hm
  simp [Elem.ctor, Heap.newArray, this]

/-! ## Lemmas: what a call leaves untouched in memory -/

theorem Heap.Extends.refl (H : Heap) : H.Extends H := fun _ _ h => h

theorem Heap.Extends.read {H H1 : Heap} (hx : H.Extends H1) {p : Ptr} {c : CChar}
    (h : H.read p = some c) : H1.read p = some c := by
  unfold Heap.read at h ⊢
  cases hb : H.blocks[p.block]? with
  | none => simp [hb] at h
  | some b =>
    rw [hx _ _ hb]
    simpa [hb] using h

theorem Heap.Extends.readN {H H1 : Heap} (hx : H.Extends H1) :
    ∀ (n : Nat) (p : Ptr) (bs : List CChar), H.readN p n = some bs → H1.readN p n = some bs := by
  intro n
  induction n with
  | zero => intro p bs h; simpa [Heap.readN] using h
  | succ n ih =>
    intro p bs h
    unfold Heap.readN at h ⊢
    cases hr : H.read p with
    | none => simp [hr] at h
    | some c =>
      cases hn : H.readN (p.add 1) n with
      | none => simp [hr, hn] at h
      | some cs =>
        simp only [hr, hn] at h
        simp only [hx.read hr, ih _ _ hn]
        exact h

theorem Heap.Extends.write {H X X1 : Heap} (hx : H.Extends X) {p : Ptr} {c : CChar}
    (hp : H.blocks[p.block]? = none) (hw : X.write p c = some X1) : H.Extends X1 := by
  unfold Heap.write at hw
  cases hb : X.blocks[p.block]? with
  | none => simp [hb] at hw
  | some b =>
    simp only [hb] at hw
    split at hw
    · simp only [Option.some.injEq] at hw
      subst hw
      intro i blk hi
      have hne : p.block ≠ i := by
        intro he
        rw [he] at hp
        rw [hp] at hi
        cases hi
      simp only [List.getElem?_set_ne hne]
      exact hx i blk hi
    · cases hw

theorem stdCopy_extends (H : Heap) :
    ∀ (n : Nat) (X X1 : Heap) (first dest : Ptr), H.Extends X → H.blocks[dest.block]? = none →
      stdCopy X first n dest = some X1 → H.Extends X1 := by
  intro n
  induction n with
  | zero =>
    intro X X1 first dest hx _ h
    simp only [stdCopy, Option.some.injEq] at h
    exact h ▸ hx
  | succ n ih =>
    intro X X1 first dest hx hd h
    unfold stdCopy at h
    cases hr : X.read first with
    | none => simp [hr] at h
    | some c =>
      cases hw : X.write dest c with
      | none => simp [hr, hw] at h
      | some X2 =>
        simp only [hr, hw] at h
        exact ih X2 X1 (first.add 1) (dest.add 1) (hx.write hd hw) hd h

theorem Heap.newArray_extends {H H1 : Heap} {n : Size} {mem : Ptr}
    (h : H.newArray n = some (mem, H1)) : H.Extends H1 ∧ H.blocks[mem.block]? = none := by
  unfold Heap.newArray at h
  split at h
  · simp only [Option.some.injEq, Prod.mk.injEq] at h
    obtain ⟨hm, hH⟩ := h
    subst hm hH
    constructor
    · intro i b hi
      have hlt : i < H.blocks.length := (List.getElem?_eq_some_iff.mp hi).1
      simp only [List.getElem?_append_left hlt, hi]
    · simp
  · cases h

theorem Elem.ctor_ok {H H1 : Heap} {s : StringViewHash} {copy : Bool} {e : Elem}
    (h : Elem.ctor H s copy = .ok e H1) :
    e.refs = atomicDefault ∧ e.owns = copy ∧ e.string.size = s.size ∧ e.string.hash = s.hash
      ∧ H.Extends H1 := by
  unfold Elem.ctor at h
  split at h
  · cases hn : H.newArray (s.size + 1) with
    | none => simp [hn] at h
    | some r =>
      obtain ⟨mem, X⟩ := r
      simp only [hn] at h
      obtain ⟨hx, hfree⟩ := Heap.newArray_extends hn
      cases hc : stdCopy X s.data s.size mem with
      | none => simp [hc] at h
      | some X2 =>
        simp only [hc] at h
        have hx2 := stdCopy_extends H s.size X X2 s.data mem hx hfree hc
        cases hw : X2.write (mem.add s.size) 0 with
        | none => simp [hw] at h
        | some X3 =>
          simp only [hw, Res.ok.injEq] at h
          obtain ⟨he, hH⟩ := h
          subst he hH
          have hfree2 : H.blocks[(mem.add s.size).block]? = none := hfree
          exact ⟨rfl, rfl, rfl, rfl, hx2.write hfree2 hw⟩
  · simp only [Res.ok.injEq] at h
    obtain ⟨he, hH⟩ := h
    subst he hH
    exact ⟨rfl, rfl, rfl, rfl, Heap.Extends.refl _⟩

theorem Elem.ctor_badAlloc_heap {H H1 : Heap} {s : StringViewHash} {copy : Bool}
    (h : Elem.ctor H s copy = .badAlloc H1) : H1 = H := by
  unfold Elem.ctor at h
  split at h
  · cases hn : H.newArray (s.size + 1) with
    | none =>
      simp only [hn, Res.badAlloc.injEq] at h
      exact h.symm
    | some r =>
      obtain ⟨mem, X⟩ := r
      simp only [hn] at h
      cases hc : stdCopy X s.data s.size mem with
      | none => simp [hc] at h
      | some X2 =>
        simp only [hc] at h
        cases hw : X2.write (mem.add s.size) 0 with
        | none => simp [hw] at h
        | some X3 => simp [hw] at h
  · cases h

/-! ## Lemmas: the method `Manager::insert` -/

theorem Manager.insert_hit {M : Manager} {n : Hash × Elem} (H : Heap) (s : StringViewHash)
    (copy : Bool) (h : M.find s.hash = some n) :
    M.insert H s copy
      = .ok (.node s.hash)
          ({ strings := { nodes := Map.modify s.hash Elem.addRef M.strings.nodes },
             nullString := M.nullString }, H) := by
  have hk : n.1 = s.hash := Map.lookup_key h
  simp only [Manager.insert, h, hk]

theorem Manager.insert_miss {M : Manager} (H : Heap) (s : StringViewHash) (copy : Bool)
    (h : M.find s.hash = none) :
    M.insert H s copy
      = match Elem.ctor H s copy with
        | .ok e H1 =>
          .ok (.node s.hash)
            ({ strings := { nodes := Map.link s.hash e M.strings.nodes },
               nullString := M.nullString }, H1)
        | .badAlloc H1 => .badAlloc (M, H1)
        | .undefined => .undefined := by
  have h2 : M.strings.find s.hash = none := h
  simp only [Manager.insert, h, Map.emplace, h2]
  cases Elem.ctor H s copy <;> rfl

theorem Manager.insert_ok_hit {M M1 : Manager} {H H1 : Heap} {s : StringViewHash} {copy : Bool}
    {r : ElemPtr} {n : Hash × Elem} (h : M.insert H s copy = .ok r (M1, H1))
    (hf : M.find s.hash = some n) :
    r = .node s.hash ∧ H1 = H ∧ M1.nullString = M.nullString
      ∧ M1.strings.nodes = Map.modify s.hash Elem.addRef M.strings.nodes := by
  rw [Manager.insert_hit H s copy hf] at h
  simp only [Res.ok.injEq, Prod.mk.injEq] at h
  obtain ⟨hr, hM, hH⟩ := h
  subst hr hM hH
  exact ⟨rfl, rfl, rfl, rfl⟩

theorem Manager.insert_ok_miss {M M1 : Manager} {H H1 : Heap} {s : StringViewHash} {copy : Bool}
    {r : ElemPtr} (h : M.insert H s copy = .ok r (M1, H1)) (hf : M.find s.hash = none) :
    r = .node s.hash ∧ M1.nullString = M.nullString
      ∧ ∃ e, Elem.ctor H s copy = .ok e H1
          ∧ M1.strings.nodes = Map.link s.hash e M.strings.nodes := by
  rw [Manager.insert_miss H s copy hf] at h
  cases hc : Elem.ctor H s copy with
  | undefined => simp [hc] at h
  | badAlloc X => simp [hc] at h
  | ok e X =>
    simp only [hc, Res.ok.injEq, Prod.mk.injEq] at h
    obtain ⟨hr, hM, hH⟩ := h
    subst hr hM hH
    exact ⟨rfl, rfl, e, rfl, rfl⟩

theorem Manager.insert_badAlloc_state {M : Manager} {H : Heap} {s : StringViewHash}
    {copy : Bool} {st : Manager × Heap} (h : M.insert H s copy = .badAlloc st) : st = (M, H) := by
  cases hf : M.find s.hash with
  | some n =>
    rw [Manager.insert_hit H s copy hf] at h
    cases h
  | none =>
    rw [Manager.insert_miss H s copy hf] at h
    cases hc : Elem.ctor H s copy with
    | undefined => simp [hc] at h
    | ok e X => simp [hc] at h
    | badAlloc X =>
      simp only [hc, Res.badAlloc.injEq] at h
      rw [← h, Elem.ctor_badAlloc_heap hc]

theorem Manager.insert_ok_ptr {M M1 : Manager} {H H1 : Heap} {s : StringViewHash} {copy : Bool}
    {r : ElemPtr} (h : M.insert H s copy = .ok r (M1, H1)) :
    r = .node s.hash ∧ M1.nullString = M.nullString ∧ H.Extends H1 := by
  cases hf : M.find s.hash with
  | some n =>
    obtain ⟨hr, hH, hn, _⟩ := Manager.insert_ok_hit h hf
    exact ⟨hr, hn, hH ▸ Heap.Extends.refl _⟩
  | none =>
    obtain ⟨hr, hn, e, he, _⟩ := Manager.insert_ok_miss h hf
    exact ⟨hr, hn, (Elem.ctor_ok he).2.2.2.2⟩

theorem Manager.insert_ok_ordered {M M1 : Manager} {H H1 : Heap} {s : StringViewHash}
    {copy : Bool} {r : ElemPtr} (h : M.insert H s copy = .ok r (M1, H1))
    (ho : M.strings.Ordered) : M1.strings.Ordered := by
  unfold Map.Ordered Map.keys at ho ⊢
  cases hf : M.find s.hash with
  | some n =>
    obtain ⟨_, _, _, hn⟩ := Manager.insert_ok_hit h hf
    rw [hn, Map.modify_keys]
    exact ho
  | none =>
    obtain ⟨_, _, e, _, hn⟩ := Manager.insert_ok_miss h hf
    rw [hn]
    exact Map.link_ordered _ _ _ ho (Map.lookup_none_iff.mp hf)

theorem Manager.insert_ok_find_self {M M1 : Manager} {H H1 : Heap} {s : StringViewHash}
    {copy : Bool} {r : ElemPtr} (h : M.insert H s copy = .ok r (M1, H1)) :
    ∃ e, M1.find s.hash = some (s.hash, e) := by
  cases hf : M.find s.hash with
  | some n =>
    obtain ⟨_, _, _, hn⟩ := Manager.insert_ok_hit h hf
    have hk : n.1 = s.hash := Map.lookup_key hf
    refine ⟨n.2.addRef, ?_⟩
    unfold Manager.find Map.find at hf ⊢
    rw [hn, Map.lookup_modify_self, hf]
    simp [hk]
  | none =>
    obtain ⟨_, _, e, _, hn⟩ := Manager.insert_ok_miss h hf
    refine ⟨e, ?_⟩
    unfold Manager.find Map.find at hf ⊢
    rw [hn]
    exact Map.lookup_link_self _ _ _ hf

theorem Manager.insert_ok_find_other {M M1 : Manager} {H H1 : Heap} {s : StringViewHash}
    {copy : Bool} {r : ElemPtr} (h : M.insert H s copy = .ok r (M1, H1)) {k : Hash}
    (hk : k ≠ s.hash) : M1.find k = M.find k := by
  cases hf : M.find s.hash with
  | some n =>
    obtain ⟨_, _, _, hn⟩ := Manager.insert_ok_hit h hf
    unfold Manager.find Map.find
    rw [hn]
    exact Map.lookup_modify_ne hk _ _
  | none =>
    obtain ⟨_, _, e, _, hn⟩ := Manager.insert_ok_miss h hf
    unfold Manager.find Map.find
    rw [hn]
    exact Map.lookup_link_ne hk _ _

/-! ## Lemmas: programs -/

theorem Manager.insert_returns {M : Manager} {H : Heap} {s : StringViewHash} {copy : Bool}
    (h : M.insertable H s copy) : ∃ r M1 H1, M.insert H s copy = .ok r (M1, H1) := by
  cases hf : M.find s.hash with
  | some n => exact ⟨_, _, _, Manager.insert_hit H s copy hf⟩
  | none =>
    rw [Manager.insert_miss H s copy hf]
    rcases h with h | h | h
    · simp [Manager.has, Manager.find] at h hf
      simp [hf] at h
    · subst h
      rw [Elem.ctor_borrow]
      exact ⟨_, _, _, rfl⟩
    · cases copy with
      | false =>
        rw [Elem.ctor_borrow]
        exact ⟨_, _, _, rfl⟩
      | true =>
        obtain ⟨hb, hm⟩ := h
        obtain ⟨bs, hbs⟩ := Option.isSome_iff_exists.mp hb
        rw [Elem.ctor_copy_ok H s bs hbs hm]
        exact ⟨_, _, _, rfl⟩

theorem Manager.ctor_ok_nodes {H H1 : Heap} {l : EmptyLiteral} {M : Manager}
    (h : Manager.ctor H l = .ok M H1) :
    ∃ e, Elem.ctor H l.view true = .ok e H1 ∧ M.strings.nodes = [(l.djb2, e)]
      ∧ M.nullString = .node l.djb2 := by
  unfold Manager.ctor Map.emplace at h
  cases hc : Elem.ctor H l.view true with
  | undefined => simp [hc] at h
  | badAlloc X => simp [hc] at h
  | ok e X =>
    simp only [hc, Map.find, Map.lookup, Res.ok.injEq] at h
    obtain ⟨hM, hH⟩ := h
    subst hM hH
    exact ⟨e, rfl, rfl, rfl⟩

theorem World.fresh_ok {H : Heap} {l : EmptyLiteral} {W0 : World}
    (h : World.fresh H l = some W0) :
    Manager.ctor H l = .ok W0.manager W0.heap ∧ W0.handles = [] := by
  unfold World.fresh at h
  cases hc : Manager.ctor H l with
  | undefined => simp [hc] at h
  | badAlloc X => simp [hc] at h
  | ok M X =>
    simp only [hc, Option.some.injEq] at h
    subst h
    exact ⟨rfl, rfl⟩

theorem World.step_cases {W W1 : World} {op : Op} (h : W.step op = some W1) :
    (W1.manager = W.manager ∧ W1.heap = W.heap)
      ∨ ∃ s copy r, W.manager.insert W.heap s copy = .ok r (W1.manager, W1.heap) := by
  cases op with
  | construct s copy =>
    simp only [World.step, ImString.ofView] at h
    cases hi : W.manager.insert W.heap s copy with
    | undefined => simp [hi] at h
    | badAlloc st =>
      simp only [hi, Option.some.injEq] at h
      have := Manager.insert_badAlloc_state hi
      subst h this
      exact Or.inl ⟨rfl, rfl⟩
    | ok p st =>
      simp only [hi, Option.some.injEq] at h
      subst h
      exact Or.inr ⟨s, copy, p, hi⟩
  | copy i =>
    simp only [World.step] at h
    cases hh : W.handles[i]? with
    | none => simp [hh] at h
    | some a =>
      simp only [hh, Option.some.injEq] at h
      subst h
      exact Or.inl ⟨rfl, rfl⟩
  | destroy i =>
    simp only [World.step] at h
    cases hh : W.handles[i]? with
    | none => simp [hh] at h
    | some a =>
      simp only [hh, Option.some.injEq] at h
      subst h
      exact Or.inl ⟨rfl, rfl⟩

theorem World.run_invariant (P : Manager → Heap → Prop)
    (hins : ∀ (M M1 : Manager) (H H1 : Heap) (s : StringViewHash) (copy : Bool) (r : ElemPtr),
      P M H → M.insert H s copy = .ok r (M1, H1) → P M1 H1) :
    ∀ (ops : List Op) (W W1 : World), P W.manager W.heap → W.run ops = some W1 →
      P W1.manager W1.heap := by
  intro ops
  induction ops with
  | nil =>
    intro W W1 hp h
    simp only [World.run, Option.some.injEq] at h
    exact h ▸ hp
  | cons op ops ih =>
    intro W W1 hp h
    unfold World.run at h
    cases hs : W.step op with
    | none => simp [hs] at h
    | some W2 =>
      simp only [hs] at h
      refine ih W2 W1 ?_ h
      rcases World.step_cases hs with ⟨hm, hh⟩ | ⟨s, copy, r, hi⟩
      · rw [hm, hh]; exact hp
      · exact hins _ _ _ _ s copy r hp hi

theorem World.reachable_ordered {H : Heap} {l : EmptyLiteral} {W0 W : World} {ops : List Op}
    (hfresh : World.fresh H l = some W0) (hrun : W0.run ops = some W) :
    W.manager.strings.Ordered := by
  refine World.run_invariant (fun M _ => M.strings.Ordered) ?_ ops W0 W ?_ hrun
  · intro M M1 H H1 s copy r hp hi
    exact Manager.insert_ok_ordered hi hp
  · obtain ⟨e, _, hn, _⟩ := Manager.ctor_ok_nodes (World.fresh_ok hfresh).1
    simp [Map.Ordered, Map.keys, hn]

/-! ## Lemmas: entries and what handles expose -/

theorem Manager.find_of_has_false {M : Manager} {k : Hash} (h : M.has k = false) :
    M.find k = none := by
  unfold Manager.has at h
  cases hc : M.strings.find k with
  | none => exact hc
  | some n => simp [hc] at h

theorem Manager.find_of_has {M : Manager} {k : Hash} (h : M.has k = true) :
    ∃ e, M.find k = some (k, e) := by
  unfold Manager.has at h
  cases hc : M.strings.find k with
  | none => simp [hc] at h
  | some n =>
    have hk : n.1 = k := Map.lookup_key hc
    exact ⟨n.2, by unfold Manager.find; rw [hc, ← hk]⟩

theorem Manager.hit_elem {M : Manager} {k : Hash} {e : Elem} (hf : M.find k = some (k, e)) :
    Manager.elem
        { strings := { nodes := Map.modify k Elem.addRef M.strings.nodes },
          nullString := M.nullString } (.node k)
      = some { refs := (e.refs + 1) % sizeModulus, owns := e.owns, string := e.string } := by
  simp only [Manager.find, Map.find] at hf
  simp [Manager.elem, Map.find, Map.lookup_modify_self, hf, Elem.addRef]

theorem Manager.hit_elem_below {M : Manager} {k : Hash} {e : Elem}
    (hf : M.find k = some (k, e)) (hb : e.refs + 1 < sizeModulus) :
    Manager.elem
        { strings := { nodes := Map.modify k Elem.addRef M.strings.nodes },
          nullString := M.nullString } (.node k)
      = some { refs := e.refs + 1, owns := e.owns, string := e.string } := by
  rw [Manager.hit_elem hf, Nat.mod_eq_of_lt hb]

theorem Manager.elem_of_find {M : Manager} {k : Hash} {e : Elem} (hf : M.find k = some (k, e)) :
    M.elem (.node k) = some e := by
  simp only [Manager.find] at hf
  simp [Manager.elem, hf]

theorem Elem.ctor_copy_bytes (H : Heap) (s : StringViewHash) (bs : List CChar)
    (hb : s.bytes H = some bs) :
    StringViewHash.bytes
        { blocks := H.blocks ++ [bs.map some ++ [some 0]], avail := H.avail - (s.size + 1) }
        { data := { block := H.blocks.length, off := 0 }, size := s.size, hash := s.hash }
      = some bs
    ∧ Heap.read
        { blocks := H.blocks ++ [bs.map some ++ [some 0]], avail := H.avail - (s.size + 1) }
        (Ptr.add { block := H.blocks.length, off := 0 } s.size)
      = some 0 := by
  have hlen : bs.length = s.size := Heap.readN_length H _ _ _ hb
  constructor
  · have hblk : (H.blocks ++ [bs.map some ++ [some 0]])[H.blocks.length]?
        = some ([] ++ bs.map some ++ [some 0]) := by
      rw [List.getElem?_append_right (Nat.le_refl _)]
      simp
    have := Heap.readN_block
      { blocks := H.blocks ++ [bs.map some ++ [some 0]], avail := H.avail - (s.size + 1) }
      H.blocks.length bs [] [some 0] hblk
    rw [hlen] at this
    exact this
  · unfold Heap.read Ptr.add
    simp only [Nat.zero_add]
    rw [List.getElem?_append_right (Nat.le_refl _)]
    simp only [Nat.sub_self, List.getElem?_cons_zero]
    rw [← hlen, List.getElem?_append_right (by simp)]
    simp

theorem Elem.ctor_ok_bytes {H H1 : Heap} {s : StringViewHash} {copy : Bool} {e : Elem}
    {bs : List CChar} (hb : s.bytes H = some bs) (h : Elem.ctor H s copy = .ok e H1) :
    e.string.bytes H1 = some bs := by
  cases copy with
  | false =>
    rw [Elem.ctor_borrow] at h
    simp only [Res.ok.injEq] at h
    obtain ⟨he, hH⟩ := h
    subst he hH
    exact hb
  | true =>
    by_cases hm : s.size + 1 ≤ H.avail
    · rw [Elem.ctor_copy_ok H s bs hb hm] at h
      simp only [Res.ok.injEq] at h
      obtain ⟨he, hH⟩ := h
      subst he hH
      exact (Elem.ctor_copy_bytes H s bs hb).1
    · rw [Elem.ctor_badAlloc H s (Nat.not_le.mp hm)] at h
      cases h

theorem Manager.insert_new_refs {M M1 : Manager} {H H1 : Heap} {s : StringViewHash}
    {copy : Bool} {r : ElemPtr} (hnew : M.has s.hash = false)
    (h : M.insert H s copy = .ok r (M1, H1)) : M1.refsAt r = some atomicDefault := by
  have hf : M.find s.hash = none := Manager.find_of_has_false hnew
  obtain ⟨hr, _, e, he, hn⟩ := Manager.insert_ok_miss h hf
  have hl := Map.lookup_link_self s.hash e M.strings.nodes hf
  subst hr
  simp [Manager.refsAt, Manager.elem, Map.find, hn, hl, (Elem.ctor_ok he).1]

/-! ## Lemmas: lookups and the two steps of `Manager::insert` -/

theorem Map.lookup_mem {k : Hash} {l : List (Hash × Elem)} {n : Hash × Elem}
    (h : Map.lookup k l = some n) : n ∈ l := by
  induction l with
  | nil => simp [Map.lookup] at h
  | cons a t ih =>
    unfold Map.lookup at h
    split at h
    · cases h
      exact List.mem_cons_self _ _
    · exact List.mem_cons_of_mem _ (ih h)

theorem Map.lookup_of_mem {k : Hash} {e : Elem} {l : List (Hash × Elem)}
    (hs : (l.map Prod.fst).Pairwise (· < ·)) (h : (k, e) ∈ l) :
    Map.lookup k l = some (k, e) := by
  induction l with
  | nil => cases h
  | cons a t ih =>
    simp only [List.map_cons, List.pairwise_cons] at hs
    rcases List.mem_cons.mp h with h | h
    · subst h
      simp [Map.lookup]
    · have hlt : a.1 < k := hs.1 k (List.mem_map_of_mem Prod.fst h)
      have hne : ¬ a.1 = k := Nat.ne_of_lt hlt
      simp only [Map.lookup, hne, if_false]
      exact ih hs.2 h

theorem Manager.has_iff_key (M : Manager) (k : Hash) : M.has k = true ↔ k ∈ M.strings.keys := by
  unfold Manager.has Map.find Map.keys
  cases hl : Map.lookup k M.strings.nodes with
  | none =>
    have := Map.lookup_none_iff.mp hl
    simp [this]
  | some n =>
    have hk := Map.lookup_key hl
    have hm := Map.lookup_mem hl
    simp only [Option.isSome_some, true_iff]
    exact hk ▸ List.mem_map_of_mem Prod.fst hm

theorem Manager.insert_eq_steps (M : Manager) (H : Heap) (s : StringViewHash) (copy : Bool) :
    M.insert H s copy
      = match M.probe s with
        | none => M.commit H s copy
        | some n => M.bump H n.1 := by
  unfold Manager.insert Manager.probe Manager.commit Manager.bump
  cases M.find s.hash <;> rfl

theorem Manager.commit_present {M M1 : Manager} {H H1 : Heap} {s : StringViewHash} {copy : Bool}
    {r : ElemPtr} {n : Hash × Elem} (hf : M.find s.hash = some n)
    (h : M.commit H s copy = .ok r (M1, H1)) : M1 = M ∧ r = .node s.hash := by
  have hk : n.1 = s.hash := Map.lookup_key hf
  have hf2 : M.strings.find s.hash = some n := hf
  unfold Manager.commit Map.emplace at h
  cases hc : Elem.ctor H s copy with
  | undefined => simp [hc] at h
  | badAlloc X => simp [hc] at h
  | ok e X =>
    simp only [hc, hf2] at h
    cases hd : Elem.dtor X e with
    | none => simp [hd] at h
    | some X2 =>
      simp only [hd, Res.ok.injEq, Prod.mk.injEq] at h
      obtain ⟨hr, hM, _⟩ := h
      exact ⟨hM.symm, by rw [← hr, hk]⟩

/-! ## Lemmas: what `Manager::insert` keeps -/

theorem Map.mem_link_iff {k : Hash} {e : Elem} {l : List (Hash × Elem)} {n : Hash × Elem} :
    n ∈ Map.link k e l ↔ (n = (k, e) ∨ n ∈ l) := by
  induction l with
  | nil => simp [Map.link]
  | cons a t ih =>
    unfold Map.link
    split
    · simp
    · simp only [List.mem_cons, ih]
      constructor
      · rintro (h | h | h)
        · exact Or.inr (Or.inl h)
        · exact Or.inl h
        · exact Or.inr (Or.inr h)
      · rintro (h | h | h)
        · exact Or.inr (Or.inl h)
        · exact Or.inl h
        · exact Or.inr (Or.inr h)

theorem Map.mem_modify {k : Hash} {f : Elem → Elem} {l : List (Hash × Elem)} {n : Hash × Elem}
    (h : n ∈ Map.modify k f l) : n ∈ l ∨ ∃ m ∈ l, n = (m.1, f m.2) := by
  induction l with
  | nil => simp [Map.modify] at h
  | cons a t ih =>
    unfold Map.modify at h
    split at h
    · rcases List.mem_cons.mp h with h | h
      · exact Or.inr ⟨a, List.mem_cons_self _ _, h⟩
      · exact Or.inl (List.mem_cons_of_mem _ h)
    · rcases List.mem_cons.mp h with h | h
      · exact Or.inl (h ▸ List.mem_cons_self _ _)
      · rcases ih h with h | ⟨m, hm, h⟩
        · exact Or.inl (List.mem_cons_of_mem _ h)
        · exact Or.inr ⟨m, List.mem_cons_of_mem _ hm, h⟩

theorem Manager.insert_ok_keys {M M1 : Manager} {H H1 : Heap} {s : StringViewHash}
    {copy : Bool} {r : ElemPtr} (h : M.insert H s copy = .ok r (M1, H1)) (k : Hash) :
    k ∈ M1.strings.keys ↔ (k ∈ M.strings.keys ∨ k = s.hash) := by
  unfold Map.keys
  cases hf : M.find s.hash with
  | some n =>
    obtain ⟨_, _, _, hn⟩ := Manager.insert_ok_hit h hf
    have hmem : s.hash ∈ M.strings.nodes.map Prod.fst := by
      have := Map.lookup_mem hf
      have hk := Map.lookup_key hf
      exact hk ▸ List.mem_map_of_mem Prod.fst this
    rw [hn, Map.modify_keys]
    constructor
    · exact Or.inl
    · rintro (h | h)
      · exact h
      · exact h ▸ hmem
  | none =>
    obtain ⟨_, _, e, _, hn⟩ := Manager.insert_ok_miss h hf
    rw [hn, (Map.link_keys_perm s.hash e M.strings.nodes).mem_iff, List.mem_cons]
    constructor
    · rintro (h | h)
      · exact Or.inr h
      · exact Or.inl h
    · rintro (h | h)
      · exact Or.inr h
      · exact Or.inl h

theorem Manager.insert_ok_same {M M1 : Manager} {H H1 : Heap} {s : StringViewHash}
    {copy : Bool} {r : ElemPtr} (h : M.insert H s copy = .ok r (M1, H1)) {n : Hash × Elem}
    (hf : M.find s.hash = some n) :
    M1.find s.hash
      = some (n.1, { refs := (n.2.refs + 1) % sizeModulus, owns := n.2.owns,
                     string := n.2.string }) := by
  obtain ⟨_, _, _, hn⟩ := Manager.insert_ok_hit h hf
  unfold Manager.find Map.find at hf ⊢
  rw [hn, Map.lookup_modify_self, hf]
  rfl

theorem Manager.insert_ok_hashes {M M1 : Manager} {H H1 : Heap} {s : StringViewHash}
    {copy : Bool} {r : ElemPtr} (h : M.insert H s copy = .ok r (M1, H1))
    (hinv : ∀ n ∈ M.strings.nodes, n.2.string.hash = n.1) :
    ∀ n ∈ M1.strings.nodes, n.2.string.hash = n.1 := by
  intro n hn
  cases hf : M.find s.hash with
  | some m =>
    obtain ⟨_, _, _, hnodes⟩ := Manager.insert_ok_hit h hf
    rw [hnodes] at hn
    rcases Map.mem_modify hn with hm | ⟨m2, hm2, rfl⟩
    · exact hinv n hm
    · exact hinv m2 hm2
  | none =>
    obtain ⟨_, _, e, he, hnodes⟩ := Manager.insert_ok_miss h hf
    rw [hnodes] at hn
    rcases Map.mem_link_iff.mp hn with rfl | hm
    · exact (Elem.ctor_ok he).2.2.2.1
    · exact hinv n hm

theorem World.reachable_hashes {H : Heap} {l : EmptyLiteral} {W0 W : World} {ops : List Op}
    (hfresh : World.fresh H l = some W0) (hlit : l.djb2 = l.hash)
    (hrun : W0.run ops = some W) :
    ∀ n ∈ W.manager.strings.nodes, n.2.string.hash = n.1 := by
  refine World.run_invariant (fun M _ => ∀ n ∈ M.strings.nodes, n.2.string.hash = n.1) ?_ ops W0 W
    ?_ hrun
  · intro M M1 H H1 s copy r hp hi
    exact Manager.insert_ok_hashes hi hp
  · obtain ⟨e, he, hn, _⟩ := Manager.ctor_ok_nodes (World.fresh_ok hfresh).1
    intro n hmem
    rw [hn] at hmem
    simp only [List.mem_singleton] at hmem
    subst hmem
    have := (Elem.ctor_ok he).2.2.2.1
    simp only [this, EmptyLiteral.view, hlit]

theorem Manager.elem_node {M : Manager} {p : ElemPtr} {e : Elem} (h : M.elem p = some e) :
    ∃ k, p = .node k ∧ (k, e) ∈ M.strings.nodes := by
  cases p with
  | obj i => simp [Manager.elem] at h
  | null => simp [Manager.elem] at h
  | node k =>
    refine ⟨k, rfl, ?_⟩
    unfold Manager.elem Map.find at h
    cases hl : Map.lookup k M.strings.nodes with
    | none => simp [hl] at h
    | some n =>
      simp only [hl, Option.map_some', Option.some.injEq] at h
      have hk := Map.lookup_key hl
      have hm := Map.lookup_mem hl
      obtain ⟨k1, e1⟩ := n
      simp only at h hk
      subst h hk
      exact hm

theorem Manager.deref_of_elem {M : Manager} {p : ElemPtr} {e : Elem} (E : List Elem)
    (h : M.elem p = some e) : M.deref E p = some e := by
  cases p with
  | obj i => simp [Manager.elem] at h
  | null => simp [Manager.elem] at h
  | node k => exact h

/-! ## Lemmas: `ImString::operator+=` -/

theorem ImString.concatBuffer_ok (H : Heap) (ea eb : Elem) (bsA bsB : List CChar)
    (hba : ea.string.bytes H = some bsA) (hbb : eb.string.bytes H = some bsB)
    (hm : ea.string.size + eb.string.size ≤ H.avail) :
    ImString.concatBuffer H ea eb
      = .ok { block := H.blocks.length, off := 0 }
          { blocks := H.blocks ++ [bsA.map some ++ bsB.map some],
            avail := H.avail - (ea.string.size + eb.string.size) } := by
  have hla : bsA.length = ea.string.size := Heap.readN_length H _ _ _ hba
  have hc1 := stdCopy_fresh H.blocks H.avail ea.string.size ea.string.data bsA []
    eb.string.size (H.avail - (ea.string.size + eb.string.size)) hba
  simp only [List.nil_append, List.length_nil] at hc1
  have hc2 := stdCopy_fresh H.blocks H.avail eb.string.size eb.string.data bsB (bsA.map some)
    0 (H.avail - (ea.string.size + eb.string.size)) hbb
  simp only [Nat.add_zero, List.length_map, hla, List.replicate_zero, List.append_nil] at hc2
  simp only [ImString.concatBuffer, Heap.newArray, hm, if_true, hc1, Ptr.add, Nat.zero_add, hc2]

theorem ImString.concatBuffer_bytes (H : Heap) (ea eb : Elem) (bsA bsB : List CChar)
    (hba : ea.string.bytes H = some bsA) (hbb : eb.string.bytes H = some bsB) :
    Heap.readN
        { blocks := H.blocks ++ [bsA.map some ++ bsB.map some],
          avail := H.avail - (ea.string.size + eb.string.size) }
        { block := H.blocks.length, off := 0 } (ea.string.size + eb.string.size)
      = some (bsA ++ bsB) := by
  have hla : bsA.length = ea.string.size := Heap.readN_length H _ _ _ hba
  have hlb : bsB.length = eb.string.size := Heap.readN_length H _ _ _ hbb
  have hblk : (H.blocks ++ [bsA.map some ++ bsB.map some])[H.blocks.length]?
      = some ([] ++ (bsA ++ bsB).map some ++ []) := by
    rw [List.getElem?_append_right (Nat.le_refl _)]
    simp
  have := Heap.readN_block
    { blocks := H.blocks ++ [bsA.map some ++ bsB.map some],
      avail := H.avail - (ea.string.size + eb.string.size) }
    H.blocks.length (bsA ++ bsB) [] [] hblk
  rw [List.length_append, hla, hlb] at this
  exact this

theorem ImString.terminator_out_of_range (H : Heap) (ea eb : Elem) (bsA bsB : List CChar)
    (hba : ea.string.bytes H = some bsA) (hbb : eb.string.bytes H = some bsB) :
    Heap.write
        { blocks := H.blocks ++ [bsA.map some ++ bsB.map some],
          avail := H.avail - (ea.string.size + eb.string.size) }
        (Ptr.add { block := H.blocks.length, off := 0 } (ImString.terminatorIndex ea eb)) 0
      = none := by
  have hla : bsA.length = ea.string.size := Heap.readN_length H _ _ _ hba
  have hlb : bsB.length = eb.string.size := Heap.readN_length H _ _ _ hbb
  unfold Heap.write Ptr.add ImString.terminatorIndex
  simp only [Nat.zero_add]
  rw [List.getElem?_append_right (Nat.le_refl _)]
  simp only [Nat.sub_self, List.getElem?_cons_zero, List.length_append, List.length_map, hla, hlb]
  have : ¬ ea.string.size + eb.string.size + 1 < ea.string.size + eb.string.size :=
    Nat.not_lt.mpr (Nat.le_succ _)
  simp only [this, if_false]

theorem Heap.extends_append (H : Heap) (ext : List (List (Option CChar))) (av : Nat) :
    H.Extends { blocks := H.blocks ++ ext, avail := av } := by
  intro i b hi
  have hlt : i < H.blocks.length := (List.getElem?_eq_some_iff.mp hi).1
  simp only [List.getElem?_append_left hlt, hi]

theorem Manager.deref_append {M : Manager} {E : List Elem} {p : ElemPtr} {e : Elem}
    (ext : List Elem) (h : M.deref E p = some e) : M.deref (E ++ ext) p = some e := by
  cases p with
  | node k => exact h
  | null => simp [Manager.deref] at h
  | obj i =>
    simp only [Manager.deref] at h ⊢
    have hlt : i < E.length := (List.getElem?_eq_some_iff.mp h).1
    rw [List.getElem?_append_left hlt]
    exact h

theorem ImString.addAssignBody_undefined (hashOf : List CChar → Hash) (M : Manager) (H : Heap)
    (E : List Elem) (a b : ImString) (ea eb : Elem) (bsA bsB : List CChar)
    (ha : M.deref E a.source = some ea) (hb : M.deref E b.source = some eb)
    (hba : ea.string.bytes H = some bsA) (hbb : eb.string.bytes H = some bsB)
    (hm : ea.string.size + eb.string.size ≤ H.avail) :
    ImString.addAssignBody hashOf M H E a b = .undefined := by
  simp only [ImString.addAssignBody, ha, hb, ImString.concatBuffer_ok H ea eb bsA bsB hba hbb hm,
    ImString.terminator_out_of_range H ea eb bsA bsB hba hbb]

theorem ImString.addAssign_never_returns (hashOf : List CChar → Hash) (M : Manager) (H : Heap)
    (E : List Elem) (a b : ImString) (x : ImString) (st : Heap × List Elem) :
    ImString.addAssign hashOf M H E a b ≠ .ok x st := by
  unfold ImString.addAssign
  cases ImString.addAssignBody hashOf M H E a b <;> simp

theorem EmptyLiteral.ofHash_view (hashOf : List CChar → Hash) (H : Heap) (lit : Ptr) :
    StringViewHash.ofData hashOf H lit 0 = some (EmptyLiteral.ofHash hashOf lit).view
      ∧ (EmptyLiteral.ofHash hashOf lit).djb2 = (EmptyLiteral.ofHash hashOf lit).view.hash := by
  exact ⟨rfl, rfl⟩

/-! ## The claims -/

/-- C1 (deduplication).  In every state reached from a freshly constructed
`Manager`, and for every content `s` for which the first call has the resources to
return, two calls `insert(s)` in a row both return normally with the same
`Elem*`, that pointer designates an entry of the table, and afterwards the table
has exactly one node with key `s.hash`. -/
theorem C1_insert_twice_same_entry (H0 : Heap) (l : EmptyLiteral) (W0 W : World)
    (ops : List Op) (s : StringViewHash) (copy1 copy2 : Bool)
    (hfresh : World.fresh H0 l = some W0) (hrun : W0.run ops = some W)
    (hres : W.manager.insertable W.heap s copy1) :
    ∃ (r : ElemPtr) (M1 M2 : Manager) (H1 : Heap) (e : Elem),
      W.manager.insert W.heap s copy1 = .ok r (M1, H1)
        ∧ M1.insert H1 s copy2 = .ok r (M2, H1)
        ∧ M2.elem r = some e
        ∧ M2.strings.keyCount s.hash = 1 := by
  obtain ⟨r, M1, H1, h1⟩ := Manager.insert_returns hres
  obtain ⟨e1, hf1⟩ := Manager.insert_ok_find_self h1
  obtain ⟨hr, _, _⟩ := Manager.insert_ok_ptr h1
  have h2 := Manager.insert_hit H1 s copy2 hf1
  obtain ⟨e2, hf2⟩ := Manager.insert_ok_find_self h2
  have ho1 : M1.strings.Ordered :=
    Manager.insert_ok_ordered h1 (World.reachable_ordered hfresh hrun)
  have ho2 := Manager.insert_ok_ordered h2 ho1
  refine ⟨r, M1, _, H1, e2, h1, hr ▸ h2, ?_, Map.keyCount_eq_one ho2 hf2⟩
  subst hr
  simp only [Manager.find] at hf2
  simp [Manager.elem, hf2]

/-- Witness of C1: after a handle of `"ab"` was constructed, copied and one of the
two destroyed, the content `"cat"` is interned twice. -/
theorem C1_insert_twice_same_entry_witness :
    ∃ (r : ElemPtr) (M1 M2 : Manager) (H1 : Heap) (e : Elem),
      sampleWorldAb.manager.insert sampleWorldAb.heap viewCat true = .ok r (M1, H1)
        ∧ M1.insert H1 viewCat true = .ok r (M2, H1)
        ∧ M2.elem r = some e
        ∧ M2.strings.keyCount viewCat.hash = 1 :=
  C1_insert_twice_same_entry sampleHeap sampleEmpty sampleWorld sampleWorldAb
    [.construct viewAb false, .copy 0, .destroy 0] viewCat true true
    (by decide) (by decide) (Or.inr (Or.inr (by decide)))

/-- C2 (refcount equals live handles), evaluated on the code: after
`ImString a("cat")` the entry of `"cat"` has one live handle and `refs = 0`; after
the copy `ImString b(a)` it has two live handles and still `refs = 0`; and after
two constructions and two destructions it has no live handle and `refs = 1`. -/
theorem C2_refs_against_live_handles :
    (sampleWorld.run [.construct viewCat true]).map
        (fun W => (W.liveRefs (.node viewCat.hash), W.manager.refsAt (.node viewCat.hash)))
      = some (1, some 0)
    ∧ (sampleWorld.run [.construct viewCat true, .copy 0]).map
        (fun W => (W.liveRefs (.node viewCat.hash), W.manager.refsAt (.node viewCat.hash)))
      = some (2, some 0)
    ∧ (sampleWorld.run
          [.construct viewCat true, .construct viewCat true, .destroy 0, .destroy 0]).map
        (fun W => (W.liveRefs (.node viewCat.hash), W.manager.refsAt (.node viewCat.hash)))
      = some (0, some 1) := by
  decide

/-- C3 (new entry starts at refcount 1), evaluated on the code: the freshly
constructed pool has no key for `"cat"`, `insert("cat", true)` returns normally,
and the `refs` of the entry it returns is 0, the value of the default-constructed
atomic, not 1. -/
theorem C3_new_entry_refs :
    sampleWorld.manager.has viewCat.hash = false
    ∧ (sampleWorld.manager.insert sampleWorld.heap viewCat true).returned.map
        (fun x => (x.1, x.2.1.refsAt x.1))
      = some (.node viewCat.hash, some 0) := by
  decide

/-- C4 (fast-path hit).  When the table has the key `s.hash`, `insert(s, copy)`
returns normally with the address of the entry stored under that key; afterwards
that entry is the old one with `refs` incremented by one as `++refs` does on the
unsigned word (`refs + 1`, which is the plain sum whenever `refs` is below
`std::numeric_limits<Size>::max()`), the keys of the table are the same list, and
the memory is untouched (nothing was allocated). -/
theorem C4_insert_hit (M : Manager) (H : Heap) (s : StringViewHash) (copy : Bool)
    (hkey : M.has s.hash = true) :
    ∃ (e : Elem) (M1 : Manager),
      M.elem (.node s.hash) = some e
        ∧ M.insert H s copy = .ok (.node s.hash) (M1, H)
        ∧ M1.elem (.node s.hash)
            = some { refs := (e.refs + 1) % sizeModulus, owns := e.owns, string := e.string }
        ∧ (e.refs + 1 < sizeModulus →
            M1.elem (.node s.hash)
              = some { refs := e.refs + 1, owns := e.owns, string := e.string })
        ∧ M1.strings.keys = M.strings.keys := by
  obtain ⟨e, hf⟩ := Manager.find_of_has hkey
  exact ⟨e, _, Manager.elem_of_find hf, Manager.insert_hit H s copy hf, Manager.hit_elem hf,
    fun hb => Manager.hit_elem_below hf hb, by simp [Map.keys, Map.modify_keys]⟩

/-- Witness of C4: the empty string interned into the freshly constructed pool,
whose table has the key of the empty string. -/
theorem C4_insert_hit_witness :
    ∃ (e : Elem) (M1 : Manager),
      sampleWorld.manager.elem (.node sampleEmpty.view.hash) = some e
        ∧ sampleWorld.manager.insert sampleWorld.heap sampleEmpty.view true
            = .ok (.node sampleEmpty.view.hash) (M1, sampleWorld.heap)
        ∧ M1.elem (.node sampleEmpty.view.hash)
            = some { refs := (e.refs + 1) % sizeModulus, owns := e.owns, string := e.string }
        ∧ (e.refs + 1 < sizeModulus →
            M1.elem (.node sampleEmpty.view.hash)
              = some { refs := e.refs + 1, owns := e.owns, string := e.string })
        ∧ M1.strings.keys = sampleWorld.manager.strings.keys :=
  C4_insert_hit sampleWorld.manager sampleWorld.heap sampleEmpty.view true (by decide)

/-- C5 (handle copy increments), evaluated on the code: with two handles of `"cat"`
constructed, the entry has `refs = 1`; copying the first handle gives a handle with
the same `source`, and the pool (so the entry and its `refs = 1`) is the same
afterwards. -/
theorem C5_copy_leaves_refs :
    (sampleWorld.run [.construct viewCat true, .construct viewCat true]).map
        (fun W => (W.handles, W.manager.refsAt (.node viewCat.hash),
          (W.handles.map fun a => a.copyCtor W.manager).map
            fun x => (x.1.source, decide (x.2 = W.manager))))
      = some ([{ source := .node viewCat.hash }, { source := .node viewCat.hash }], some 1,
          [(.node viewCat.hash, true), (.node viewCat.hash, true)])
    ∧ (sampleWorld.run [.construct viewCat true, .construct viewCat true, .copy 0]).map
        (fun W => (W.liveRefs (.node viewCat.hash), W.manager.refsAt (.node viewCat.hash)))
      = some (3, some 1) := by
  decide

/-- C6 (handle destruction releases), evaluated on the code for the scenario
`h1 = intern("cat")`, `h2 = intern("cat")`, drop `h1`, drop `h2`: with both handles
alive `refs = 1`; after dropping `h1` still `refs = 1`; after dropping `h2` no
handle is left, the key of `"cat"` is still in the table and still `refs = 1`. -/
theorem C6_destruction_leaves_entry :
    (sampleWorld.run [.construct viewCat true, .construct viewCat true]).map
        (fun W => (W.handles.length, W.manager.has viewCat.hash,
          W.manager.refsAt (.node viewCat.hash)))
      = some (2, true, some 1)
    ∧ (sampleWorld.run [.construct viewCat true, .construct viewCat true, .destroy 0]).map
        (fun W => (W.handles.length, W.manager.has viewCat.hash,
          W.manager.refsAt (.node viewCat.hash)))
      = some (1, true, some 1)
    ∧ (sampleWorld.run
          [.construct viewCat true, .construct viewCat true, .destroy 0, .destroy 0]).map
        (fun W => (W.handles.length, W.manager.has viewCat.hash,
          W.manager.refsAt (.node viewCat.hash)))
      = some (0, true, some 1) := by
  decide

/-- C7 (collision), the claim on the code: in the freshly constructed pool the
contents `"ab"` and `"bA"` differ and have the same hash; after interning `"ab"` and
then `"bA"` the table has one node under that hash, both handles have the same
`source`, and the handle returned for `"bA"` exposes the characters of `"ab"`. -/
theorem C7_collision_counterexample :
    viewAb.hash = viewBA.hash
    ∧ viewAb.bytes sampleWorld.heap = some [97, 98]
    ∧ viewBA.bytes sampleWorld.heap = some [98, 65]
    ∧ (sampleWorld.run [.construct viewAb true, .construct viewBA true]).map
        (fun W => (W.manager.strings.keyCount viewBA.hash, W.handles,
          W.handles.map fun a => a.chars W.manager W.heap))
      = some (1, [{ source := .node viewAb.hash }, { source := .node viewAb.hash }],
          [some [97, 98], some [97, 98]]) := by
  decide

/-- C7 as amended.  For two contents `s1`, `s2` with different characters and the
same hash, with `s1` new to the pool: interning `s1` and then `s2` stores one entry
under the shared hash.  The call for `s2` returns the pointer the call for `s1`
returned, raises the `refs` of that entry by one and changes nothing else of it, adds
no key and allocates nothing, and the handle it yields exposes the characters of
`s1`, not those of `s2`. -/
theorem C7_collision_shares_entry (M : Manager) (H : Heap) (s1 s2 : StringViewHash)
    (bs1 bs2 : List CChar) (copy1 copy2 : Bool)
    (ho : M.strings.Ordered) (hnew : M.has s1.hash = false)
    (hb1 : s1.bytes H = some bs1) (hb2 : s2.bytes H = some bs2) (hne : bs1 ≠ bs2)
    (hhash : s1.hash = s2.hash) (hres : copy1 = false ∨ s1.size + 1 ≤ H.avail) :
    ∃ (r : ElemPtr) (M1 M2 : Manager) (H1 : Heap) (e1 : Elem),
      M.insert H s1 copy1 = .ok r (M1, H1)
        ∧ M1.elem r = some e1
        ∧ M1.insert H1 s2 copy2 = .ok r (M2, H1)
        ∧ M2.elem r = some { refs := e1.refs + 1, owns := e1.owns, string := e1.string }
        ∧ M2.strings.keys = M1.strings.keys
        ∧ M2.strings.keyCount s2.hash = 1
        ∧ ImString.chars M2 H1 { source := r } = some bs1
        ∧ ImString.chars M2 H1 { source := r } ≠ s2.bytes H1 := by
  have hins : M.insertable H s1 copy1 := by
    rcases hres with h | h
    · exact Or.inr (Or.inl h)
    · exact Or.inr (Or.inr ⟨by simp [hb1], h⟩)
  obtain ⟨r, M1, H1, hi1⟩ := Manager.insert_returns hins
  have hf : M.find s1.hash = none := Manager.find_of_has_false hnew
  obtain ⟨hr, _, e, he, hn⟩ := Manager.insert_ok_miss hi1 hf
  obtain ⟨_, _, hext⟩ := Manager.insert_ok_ptr hi1
  have hf1 : M1.find s2.hash = some (s2.hash, e) := by
    rw [← hhash]
    unfold Manager.find Map.find
    rw [hn]
    exact Map.lookup_link_self _ _ _ hf
  have hi2 := Manager.insert_hit H1 s2 copy2 hf1
  have ho2 := Manager.insert_ok_ordered hi2 (Manager.insert_ok_ordered hi1 ho)
  obtain ⟨e2, hf2⟩ := Manager.insert_ok_find_self hi2
  have hbytes : e.string.bytes H1 = some bs1 := Elem.ctor_ok_bytes hb1 he
  have hb2x : s2.bytes H1 = some bs2 := hext.readN _ _ _ hb2
  have hrr : r = .node s2.hash := hhash ▸ hr
  subst hrr
  have hchars : ImString.chars
      { strings := { nodes := Map.modify s2.hash Elem.addRef M1.strings.nodes },
        nullString := M1.nullString } H1 { source := .node s2.hash } = some bs1 := by
    simp only [ImString.chars, Manager.hit_elem hf1, Option.some_bind]
    exact hbytes
  have hlt : e.refs + 1 < sizeModulus := by
    rw [(Elem.ctor_ok he).1]
    decide
  refine ⟨_, M1, _, H1, e, hi1, Manager.elem_of_find hf1, hi2, Manager.hit_elem_below hf1 hlt, ?_,
    Map.keyCount_eq_one ho2 hf2, hchars, ?_⟩
  · simp [Map.keys, Map.modify_keys]
  · rw [hchars, hb2x]
    intro h
    exact hne (Option.some.inj h)

/-- Witness of C7 as amended: `"ab"` and `"bA"` in the freshly constructed pool. -/
theorem C7_collision_shares_entry_witness :
    ∃ (r : ElemPtr) (M1 M2 : Manager) (H1 : Heap) (e1 : Elem),
      sampleWorld.manager.insert sampleWorld.heap viewAb true = .ok r (M1, H1)
        ∧ M1.elem r = some e1
        ∧ M1.insert H1 viewBA true = .ok r (M2, H1)
        ∧ M2.elem r = some { refs := e1.refs + 1, owns := e1.owns, string := e1.string }
        ∧ M2.strings.keys = M1.strings.keys
        ∧ M2.strings.keyCount viewBA.hash = 1
        ∧ ImString.chars M2 H1 { source := r } = some [97, 98]
        ∧ ImString.chars M2 H1 { source := r } ≠ viewBA.bytes H1 :=
  C7_collision_shares_entry sampleWorld.manager sampleWorld.heap viewAb viewBA [97, 98] [98, 65]
    true true (by decide) (by decide) (by decide) (by decide) (by decide) (by decide)
    (Or.inr (by decide))

/-- C8 (empty-string permanence).  The table of a freshly constructed `Manager`
has, under the key `hashes::djb2<Hash>("")`, an entry whose content has size 0 and
is followed by its zero character, and `nullString` points to it.  In every state
reached from there by constructing, copying and destroying handles the table still
has that entry under that key, with the same string and `owns` flag; `nullString`
still points to it and its array is still in memory. -/
theorem C8_empty_string_permanent (H0 : Heap) (l : EmptyLiteral) (W0 : World)
    (hfresh : World.fresh H0 l = some W0) :
    ∃ e0 : Elem,
      W0.manager.find l.djb2 = some (l.djb2, e0)
        ∧ W0.manager.nullString = .node l.djb2
        ∧ e0.string.size = 0
        ∧ e0.string.bytes W0.heap = some []
        ∧ W0.heap.read e0.string.data = some 0
        ∧ ∀ (ops : List Op) (W : World), W0.run ops = some W →
            ∃ e : Elem,
              W.manager.find l.djb2 = some (l.djb2, e)
                ∧ W.manager.nullString = .node l.djb2
                ∧ e.string = e0.string ∧ e.owns = e0.owns
                ∧ e.string.bytes W.heap = some []
                ∧ W.heap.read e.string.data = some 0 := by
  obtain ⟨hctor, _⟩ := World.fresh_ok hfresh
  obtain ⟨e0, he0, hn, hnull⟩ := Manager.ctor_ok_nodes hctor
  have hb : l.view.bytes H0 = some [] := rfl
  have hsize : e0.string.size = 0 := (Elem.ctor_ok he0).2.2.1
  have hzero : W0.heap.read e0.string.data = some 0 := by
    by_cases hm : l.view.size + 1 ≤ H0.avail
    · have hz := (Elem.ctor_copy_bytes H0 l.view [] hb).2
      rw [Elem.ctor_copy_ok H0 l.view [] hb hm] at he0
      simp only [Res.ok.injEq] at he0
      obtain ⟨h1, h2⟩ := he0
      subst h1
      rw [← h2]
      exact hz
    · rw [Elem.ctor_badAlloc H0 l.view (Nat.not_le.mp hm)] at he0
      cases he0
  have hfind : W0.manager.find l.djb2 = some (l.djb2, e0) := by
    simp [Manager.find, Map.find, hn, Map.lookup]
  have hbytes0 : ∀ X : Heap, e0.string.bytes X = some [] := by
    intro X
    simp [StringViewHash.bytes, hsize, Heap.readN]
  refine ⟨e0, hfind, hnull, hsize, hbytes0 _, hzero, ?_⟩
  intro ops W hrun
  have key := World.run_invariant
    (fun M X => ∃ e : Elem, M.find l.djb2 = some (l.djb2, e) ∧ M.nullString = .node l.djb2
      ∧ e.string = e0.string ∧ e.owns = e0.owns ∧ X.read e0.string.data = some 0)
    ?_ ops W0 W ⟨e0, hfind, hnull, rfl, rfl, hzero⟩ hrun
  · obtain ⟨e, h1, h2, h3, h4, h5⟩ := key
    exact ⟨e, h1, h2, h3, h4, h3 ▸ hbytes0 _, h3 ▸ h5⟩
  · intro M M1 H H1 s copy r ⟨e, h1, h2, h3, h4, h5⟩ hi
    obtain ⟨_, hnl, hext⟩ := Manager.insert_ok_ptr hi
    by_cases hk : l.djb2 = s.hash
    · rw [hk] at h1
      obtain ⟨_, _, _, hnodes⟩ := Manager.insert_ok_hit hi h1
      have he := Manager.hit_elem h1
      refine ⟨{ refs := (e.refs + 1) % sizeModulus, owns := e.owns, string := e.string }, ?_,
        hnl ▸ h2, h3, h4,
        hext.read h5⟩
      rw [hk]
      simp only [Manager.find, Map.find] at h1 ⊢
      rw [hnodes, Map.lookup_modify_self, h1]
      simp [Elem.addRef]
    · exact ⟨e, (Manager.insert_ok_find_other hi hk) ▸ h1, hnl ▸ h2, h3, h4, hext.read h5⟩

/-- Witness of C8: the pool constructed in the sample memory. -/
theorem C8_empty_string_permanent_witness :
    ∃ e0 : Elem,
      sampleWorld.manager.find sampleEmpty.djb2 = some (sampleEmpty.djb2, e0)
        ∧ sampleWorld.manager.nullString = .node sampleEmpty.djb2
        ∧ e0.string.size = 0
        ∧ e0.string.bytes sampleWorld.heap = some []
        ∧ sampleWorld.heap.read e0.string.data = some 0
        ∧ ∀ (ops : List Op) (W : World), sampleWorld.run ops = some W →
            ∃ e : Elem,
              W.manager.find sampleEmpty.djb2 = some (sampleEmpty.djb2, e)
                ∧ W.manager.nullString = .node sampleEmpty.djb2
                ∧ e.string = e0.string ∧ e.owns = e0.owns
                ∧ e.string.bytes W.heap = some []
                ∧ W.heap.read e.string.data = some 0 :=
  C8_empty_string_permanent sampleHeap sampleEmpty sampleWorld (by decide)

/-- C9 (entry construction fidelity).  For a view `s` whose characters `bs` can be
read, with memory left for the copy: `Elem(s, true)` returns an entry with
`owns = true` whose string has the size and the hash of `s`, shows the characters
`bs` and is followed by a zero character, in an array that did not exist before
while every earlier array is unchanged; `Elem(s, false)` returns an entry with
`owns = false` whose string is `s` itself, in the same memory; and in a pool
without the key `s.hash` the handle built by `ImString(s)` has `size() = s.size`
and exposes the characters `bs`. -/
theorem C9_elem_construction (M : Manager) (H : Heap) (s : StringViewHash) (bs : List CChar)
    (hb : s.bytes H = some bs) (hm : s.size + 1 ≤ H.avail) (hnew : M.has s.hash = false) :
    (∃ (e : Elem) (H1 : Heap),
        Elem.ctor H s true = .ok e H1 ∧ e.owns = true ∧ e.string.size = s.size
          ∧ bs.length = s.size ∧ e.string.hash = s.hash
          ∧ e.string.bytes H1 = some bs
          ∧ H1.read (e.string.data.add s.size) = some 0
          ∧ H.blocks[e.string.data.block]? = none ∧ H.Extends H1)
      ∧ (∃ e : Elem, Elem.ctor H s false = .ok e H ∧ e.owns = false ∧ e.string = s)
      ∧ ∃ (a : ImString) (M1 : Manager) (H1 : Heap),
          ImString.ofView M H s true = .ok a (M1, H1) ∧ a.size M1 = some s.size
            ∧ a.data M1 = some { block := H.blocks.length, off := 0 }
            ∧ a.chars M1 H1 = some bs := by
  have hc := Elem.ctor_copy_ok H s bs hb hm
  obtain ⟨hbytes, hzero⟩ := Elem.ctor_copy_bytes H s bs hb
  refine ⟨⟨_, _, hc, rfl, rfl, Heap.readN_length H _ _ _ hb, rfl, hbytes, hzero, ?_,
    (Elem.ctor_ok hc).2.2.2.2⟩, ⟨_, Elem.ctor_borrow H s, rfl, rfl⟩, ?_⟩
  · simp
  · have hf : M.find s.hash = none := Manager.find_of_has_false hnew
    obtain ⟨r, M1, H1, hi⟩ :=
      Manager.insert_returns (M := M) (Or.inr (Or.inr ⟨by simp [hb], hm⟩) : M.insertable H s true)
    obtain ⟨hr, _, e, he, hn⟩ := Manager.insert_ok_miss hi hf
    have hl := Map.lookup_link_self s.hash e M.strings.nodes hf
    rw [hc] at he
    simp only [Res.ok.injEq] at he
    obtain ⟨he1, he2⟩ := he
    subst hr he1
    refine ⟨{ source := .node s.hash }, M1, H1, by simp only [ImString.ofView, hi], ?_, ?_, ?_⟩
    · simp [ImString.size, Manager.elem, Map.find, hn, hl]
    · simp [ImString.data, Manager.elem, Map.find, hn, hl]
    · simp only [ImString.chars, Manager.elem, Map.find, hn, hl, Option.map_some',
        Option.some_bind]
      exact he2 ▸ hbytes

/-- Witness of C9: the content `"cat"` and the freshly constructed pool. -/
theorem C9_elem_construction_witness :
    (∃ (e : Elem) (H1 : Heap),
        Elem.ctor sampleWorld.heap viewCat true = .ok e H1 ∧ e.owns = true
          ∧ e.string.size = viewCat.size
          ∧ [99, 97, 116].length = viewCat.size ∧ e.string.hash = viewCat.hash
          ∧ e.string.bytes H1 = some [99, 97, 116]
          ∧ H1.read (e.string.data.add viewCat.size) = some 0
          ∧ sampleWorld.heap.blocks[e.string.data.block]? = none
          ∧ sampleWorld.heap.Extends H1)
      ∧ (∃ e : Elem, Elem.ctor sampleWorld.heap viewCat false = .ok e sampleWorld.heap
          ∧ e.owns = false ∧ e.string = viewCat)
      ∧ ∃ (a : ImString) (M1 : Manager) (H1 : Heap),
          ImString.ofView sampleWorld.manager sampleWorld.heap viewCat true = .ok a (M1, H1)
            ∧ a.size M1 = some viewCat.size
            ∧ a.data M1 = some { block := sampleWorld.heap.blocks.length, off := 0 }
            ∧ a.chars M1 H1 = some [99, 97, 116] :=
  C9_elem_construction sampleWorld.manager sampleWorld.heap viewCat [99, 97, 116]
    (by decide) (by decide) (by decide)

/-- C10 (allocation failure is all-or-nothing).  When the table has no key `s.hash`
and `new` cannot give the `s.size + 1` characters of the copy, `insert(s, true)`
ends with `std::bad_alloc` (no `Elem*` is returned) and the pool and the memory at
that moment are exactly those before the call; so does the constructor
`ImString(s, true)`. -/
theorem C10_insert_bad_alloc_unchanged (M : Manager) (H : Heap) (s : StringViewHash)
    (hnew : M.has s.hash = false) (hfail : H.avail < s.size + 1) :
    M.insert H s true = .badAlloc (M, H)
      ∧ ImString.ofView M H s true = .badAlloc (M, H) := by
  have hf : M.find s.hash = none := Manager.find_of_has_false hnew
  have hi : M.insert H s true = .badAlloc (M, H) := by
    rw [Manager.insert_miss H s true hf, Elem.ctor_badAlloc H s hfail]
  exact ⟨hi, by simp only [ImString.ofView, hi]⟩

/-- Witness of C10: `"cat"` needs four characters, the memory has three left. -/
theorem C10_insert_bad_alloc_unchanged_witness :
    sampleWorld.manager.insert { blocks := sampleWorld.heap.blocks, avail := 3 } viewCat true
        = .badAlloc (sampleWorld.manager, { blocks := sampleWorld.heap.blocks, avail := 3 })
      ∧ ImString.ofView sampleWorld.manager { blocks := sampleWorld.heap.blocks, avail := 3 }
          viewCat true
        = .badAlloc (sampleWorld.manager, { blocks := sampleWorld.heap.blocks, avail := 3 }) :=
  C10_insert_bad_alloc_unchanged sampleWorld.manager
    { blocks := sampleWorld.heap.blocks, avail := 3 } viewCat (by decide) (by decide)

/-- C11 (lookups are read-only).  On a table with ascending keys, `has(h)`
returns `true` exactly when `h` is a key of the table, `find(h)` returns `end()`
exactly when `h` is no key and otherwise the one node stored under `h`, and both
calls leave the pool (keys, entries, `refs`) and the memory as they were. -/
theorem C11_lookups_read_only (M : Manager) (H : Heap) (h : Hash) (ho : M.strings.Ordered) :
    (∃ b : Bool, M.hasCall H h = .ok b (M, H) ∧ (b = true ↔ h ∈ M.strings.keys))
      ∧ ∃ it : Option (Hash × Elem), M.findCall H h = .ok it (M, H)
          ∧ (it = none ↔ h ∉ M.strings.keys)
          ∧ ∀ n : Hash × Elem, it = some n ↔ (n ∈ M.strings.nodes ∧ n.1 = h) := by
  refine ⟨⟨M.has h, rfl, Manager.has_iff_key M h⟩, M.find h, rfl, Map.lookup_none_iff, ?_⟩
  intro n
  constructor
  · intro hn
    exact ⟨Map.lookup_mem hn, Map.lookup_key hn⟩
  · rintro ⟨hm, hk⟩
    obtain ⟨k, e⟩ := n
    simp only at hk
    subst hk
    exact Map.lookup_of_mem ho hm

/-- Witness of C11: the key of the empty string in the freshly constructed pool. -/
theorem C11_lookups_read_only_witness :
    (∃ b : Bool, sampleWorld.manager.hasCall sampleWorld.heap 5381
          = .ok b (sampleWorld.manager, sampleWorld.heap)
        ∧ (b = true ↔ 5381 ∈ sampleWorld.manager.strings.keys))
      ∧ ∃ it : Option (Hash × Elem), sampleWorld.manager.findCall sampleWorld.heap 5381
            = .ok it (sampleWorld.manager, sampleWorld.heap)
          ∧ (it = none ↔ 5381 ∉ sampleWorld.manager.strings.keys)
          ∧ ∀ n : Hash × Elem,
              it = some n ↔ (n ∈ sampleWorld.manager.strings.nodes ∧ n.1 = 5381) :=
  C11_lookups_read_only sampleWorld.manager sampleWorld.heap 5381 (by decide)

/-- C12 (handle ordering is by hash).  For handles `a`, `b`, `c` whose `source`
points to the entries `ea`, `eb`, `ec`: `a < b` is the comparison of the cached
hashes of `ea` and `eb`; `a < a` is false; `a < b` excludes `b < a`; `a < b` and
`b < c` give `a < c`; and with equal hashes neither `a < b` nor `b < a`. -/
theorem C12_lt_by_hash (M : Manager) (E : List Elem) (a b c : ImString) (ea eb ec : Elem)
    (ha : M.deref E a.source = some ea) (hb : M.deref E b.source = some eb)
    (hc : M.deref E c.source = some ec) :
    ImString.lt M E a b = some (decide (ea.string.hash < eb.string.hash))
      ∧ ImString.lt M E a a = some false
      ∧ (ImString.lt M E a b = some true → ImString.lt M E b a = some false)
      ∧ (ImString.lt M E a b = some true → ImString.lt M E b c = some true →
          ImString.lt M E a c = some true)
      ∧ (ea.string.hash = eb.string.hash →
          ImString.lt M E a b = some false ∧ ImString.lt M E b a = some false) := by
  simp only [ImString.lt, ha, hb, hc, Option.some.injEq, decide_eq_true_eq, decide_eq_false_iff_not,
    Nat.lt_irrefl, not_false_eq_true, true_and]
  refine ⟨fun h => Nat.lt_asymm h, fun h1 h2 => Nat.lt_trans h1 h2, fun h => ?_⟩
  rw [h]
  exact ⟨Nat.lt_irrefl _, Nat.lt_irrefl _⟩

/-- Witness of C12: the handles of `"ab"` and `"bA"` (one entry, so equal hashes)
and the handle of the empty string in the pool where `"ab"` was interned. -/
theorem C12_lt_by_hash_witness :
    ImString.lt sampleWorldAb.manager [] { source := .node 5381 } { source := .node 5863208 }
        = some (decide ((5381 : Hash) < 5863208))
      ∧ ImString.lt sampleWorldAb.manager [] { source := .node 5381 } { source := .node 5381 }
        = some false
      ∧ (ImString.lt sampleWorldAb.manager [] { source := .node 5381 }
            { source := .node 5863208 } = some true →
          ImString.lt sampleWorldAb.manager [] { source := .node 5863208 }
            { source := .node 5381 } = some false)
      ∧ (ImString.lt sampleWorldAb.manager [] { source := .node 5381 }
            { source := .node 5863208 } = some true →
          ImString.lt sampleWorldAb.manager [] { source := .node 5863208 }
            { source := .node 5863208 } = some true →
          ImString.lt sampleWorldAb.manager [] { source := .node 5381 }
            { source := .node 5863208 } = some true)
      ∧ ((5381 : Hash) = 5863208 →
          ImString.lt sampleWorldAb.manager [] { source := .node 5381 }
              { source := .node 5863208 } = some false
            ∧ ImString.lt sampleWorldAb.manager [] { source := .node 5863208 }
              { source := .node 5381 } = some false) :=
  C12_lt_by_hash sampleWorldAb.manager [] { source := .node 5381 } { source := .node 5863208 }
    { source := .node 5863208 }
    { refs := 0, owns := true,
      string := { data := { block := 4, off := 0 }, size := 0, hash := 5381 } }
    { refs := 0, owns := false,
      string := { data := { block := 2, off := 0 }, size := 2, hash := 5863208 } }
    { refs := 0, owns := false,
      string := { data := { block := 2, off := 0 }, size := 2, hash := 5863208 } }
    (by decide) (by decide) (by decide)

/-- C13 (concurrent insert race), evaluated on the code for the novel content
`"cat"`.  Two threads, interleaving probe, probe, `emplace`, `emplace`: both return
the same entry, the table has one node for the hash, and `refs = 0`, not 2.  Two
threads one after the other: one node and `refs = 1`, not 2.  One thread alone: one
node and `refs = 0`, not 1. -/
theorem C13_race_refs :
    (sampleShared.run [0, 1, 0, 1]).map
        (fun S => (S.returnedPtrs, S.manager.strings.keyCount viewCat.hash,
          S.manager.refsAt (.node viewCat.hash)))
      = some ([.node viewCat.hash, .node viewCat.hash], 1, some 0)
    ∧ (sampleShared.run [0, 0, 1, 1]).map
        (fun S => (S.returnedPtrs, S.manager.strings.keyCount viewCat.hash,
          S.manager.refsAt (.node viewCat.hash)))
      = some ([.node viewCat.hash, .node viewCat.hash], 1, some 1)
    ∧ (sampleSharedOne.run [0, 0]).map
        (fun S => (S.returnedPtrs, S.manager.strings.keyCount viewCat.hash,
          S.manager.refsAt (.node viewCat.hash)))
      = some ([.node viewCat.hash], 1, some 0) := by
  decide

/-- C14 (exclusive-path re-check), evaluated on the code: in the pool where `"cat"`
is interned with `refs = 0`, the step `emplace` of a call `insert("cat", true)`
whose probe had found nothing returns the entry that is there, the table keeps its
one node for the hash, and the pool is the same as before the step: `refs` is
still 0, not 1. -/
theorem C14_commit_on_present_key :
    (sampleWorld.run [.construct viewCat true]).bind
        (fun W => (W.manager.commit W.heap viewCat true).returned.map
          fun x => (W.manager.has viewCat.hash, W.manager.refsAt (.node viewCat.hash), x.1,
            x.2.1.strings.keyCount viewCat.hash, x.2.1.refsAt x.1,
            decide (x.2.1 = W.manager)))
      = some (true, some 0, .node viewCat.hash, 1, some 0, true) := by
  rfl

/-- C15 (concatenation interns a new value), the claim on the code, for the handles
of `"ab"` and `"cat"`: the call `a += b` has no defined behaviour; its first three
statements do build `"abcat"` in a new array, and its last statement, run on the
state they leave, gives `a` the address of an object made by `new Elem` (with
`owns = false` and the hash of `"abcat"`), which is no entry of the table, and the
table has no key for that hash. -/
theorem C15_concat_counterexample :
    (sampleWorld.run [.construct viewAb true, .construct viewCat true]).bind
        (fun W => (W.manager.elem (.node viewAb.hash)).bind fun ea =>
          (W.manager.elem (.node viewCat.hash)).bind fun eb =>
            (ImString.concatBuffer W.heap ea eb).returned.bind fun x =>
              (ImString.assignNewElem sampleHash x.2 [] x.1
                  (ea.string.size + eb.string.size)).returned.map fun y =>
                (decide (ImString.addAssign sampleHash W.manager W.heap []
                    { source := .node viewAb.hash } { source := .node viewCat.hash }
                      = .undefined),
                  x.2.readN x.1 5, y.1.source, W.manager.elem y.1.source,
                  (y.2.2[0]?).map (fun e => (e.owns, e.string.hash)),
                  W.manager.has (sampleHash [97, 98, 99, 97, 116])))
      = some (true, some [97, 98, 99, 97, 116], .obj 0, none,
          some (false, sampleHash [97, 98, 99, 97, 116]), false) := by
  rfl

/-- C15 as amended.  For handles `a` and `b` whose entries `ea`, `eb` show readable
characters `bsA`, `bsB`, with memory for `|a| + |b|` characters, the statements of
`a += b` other than the store of the terminator do not intern the concatenation.
The first three build, in an array that did not exist before, the characters of
`a` followed by those of `b`, every earlier array unchanged.  The last one, run on
the state they leave, gives `a` as `source` the address of a new object made by
`new Elem`, with `owns = false`, which shows those characters with their hash and
is no entry of the pool's table.  The entry `a` referred to before is still what
it was and shows the same characters. -/
theorem C15_concat_not_interned (hashOf : List CChar → Hash) (M : Manager) (H : Heap)
    (E : List Elem) (a b : ImString) (ea eb : Elem) (bsA bsB : List CChar)
    (ha : M.deref E a.source = some ea) (hb : M.deref E b.source = some eb)
    (hba : ea.string.bytes H = some bsA) (hbb : eb.string.bytes H = some bsB)
    (hm : ea.string.size + eb.string.size ≤ H.avail) :
    ∃ (mem : Ptr) (H3 : Heap) (a1 : ImString) (e1 : Elem),
      ImString.concatBuffer H ea eb = .ok mem H3
        ∧ H.blocks[mem.block]? = none ∧ H.Extends H3
        ∧ H3.readN mem (ea.string.size + eb.string.size) = some (bsA ++ bsB)
        ∧ ImString.assignNewElem hashOf H3 E mem (ea.string.size + eb.string.size)
            = .ok a1 (H3, E ++ [e1])
        ∧ a1.source = .obj E.length
        ∧ M.elem a1.source = none
        ∧ M.deref (E ++ [e1]) a1.source = some e1
        ∧ e1.owns = false
        ∧ e1.string.bytes H3 = some (bsA ++ bsB)
        ∧ e1.string.hash = hashOf (bsA ++ bsB)
        ∧ M.deref (E ++ [e1]) a.source = some ea
        ∧ M.deref (E ++ [e1]) b.source = some eb
        ∧ ea.string.bytes H3 = some bsA := by
  have hbuf := ImString.concatBuffer_ok H ea eb bsA bsB hba hbb hm
  have hbytes := ImString.concatBuffer_bytes H ea eb bsA bsB hba hbb
  have hext := Heap.extends_append H [bsA.map some ++ bsB.map some]
    (H.avail - (ea.string.size + eb.string.size))
  refine ⟨_, _, { source := .obj E.length },
    { refs := atomicDefault, owns := false,
      string := { data := { block := H.blocks.length, off := 0 },
                  size := ea.string.size + eb.string.size, hash := hashOf (bsA ++ bsB) } },
    hbuf, by simp, hext, hbytes, ?_, rfl, rfl, by simp [Manager.deref], rfl, hbytes, rfl,
    Manager.deref_append _ ha, Manager.deref_append _ hb, hext.readN _ _ _ hba⟩
  simp only [ImString.assignNewElem, StringViewHash.ofData, hbytes, Option.map_some',
    Elem.ctor_borrow]

/-- Witness of C15 as amended: the handles of `"ab"` and of the empty string in the
pool that holds both. -/
theorem C15_concat_not_interned_witness :
    ∃ (mem : Ptr) (H3 : Heap) (a1 : ImString) (e1 : Elem),
      ImString.concatBuffer sampleWorldAb.heap
          { refs := 0, owns := false,
            string := { data := { block := 2, off := 0 }, size := 2, hash := 5863208 } }
          { refs := 0, owns := true,
            string := { data := { block := 4, off := 0 }, size := 0, hash := 5381 } }
        = .ok mem H3
        ∧ sampleWorldAb.heap.blocks[mem.block]? = none ∧ sampleWorldAb.heap.Extends H3
        ∧ H3.readN mem (2 + 0) = some ([97, 98] ++ [])
        ∧ ImString.assignNewElem sampleHash H3 [] mem (2 + 0) = .ok a1 (H3, [] ++ [e1])
        ∧ a1.source = .obj 0
        ∧ sampleWorldAb.manager.elem a1.source = none
        ∧ sampleWorldAb.manager.deref ([] ++ [e1]) a1.source = some e1
        ∧ e1.owns = false
        ∧ e1.string.bytes H3 = some ([97, 98] ++ [])
        ∧ e1.string.hash = sampleHash ([97, 98] ++ [])
        ∧ sampleWorldAb.manager.deref ([] ++ [e1]) (ImString.mk (.node 5863208)).source
            = some { refs := 0, owns := false,
                     string := { data := { block := 2, off := 0 }, size := 2, hash := 5863208 } }
        ∧ sampleWorldAb.manager.deref ([] ++ [e1]) (ImString.mk (.node 5381)).source
            = some { refs := 0, owns := true,
                     string := { data := { block := 4, off := 0 }, size := 0, hash := 5381 } }
        ∧ StringViewHash.bytes H3 { data := { block := 2, off := 0 }, size := 2, hash := 5863208 }
            = some [97, 98] :=
  C15_concat_not_interned sampleHash sampleWorldAb.manager sampleWorldAb.heap []
    { source := .node 5863208 } { source := .node 5381 }
    { refs := 0, owns := false,
      string := { data := { block := 2, off := 0 }, size := 2, hash := 5863208 } }
    { refs := 0, owns := true,
      string := { data := { block := 4, off := 0 }, size := 0, hash := 5381 } }
    [97, 98] [] (by decide) (by decide) (by decide) (by decide) (by decide)

/-- C16 (handle entry is never null), the claim on the code: the default
constructor under value-initialisation and the constructor from `Elem*` given a
null pointer produce a handle whose `source` is null and points to no `Elem`; the
constructor from `Elem*` given the address of an object made by `new Elem`
produces a handle whose `source` is no entry of the table. -/
theorem C16_null_source_counterexample :
    (ImString.default .null).source = .null
    ∧ (ImString.ofElem .null).source = .null
    ∧ sampleWorld.manager.deref [] (ImString.ofElem .null).source = none
    ∧ sampleWorld.manager.elem (ImString.ofElem (.obj 0)).source = none := by
  decide

/-- C16 as amended.  The constructors that call `Manager::insert` (from a
`StringViewHash`, from a `[begin, end)` pair, from a C string, from a
`std::string`), given the resources for the call to return, produce a handle whose
`source` is not null and points to an entry of the pool's table. -/
theorem C16_inserting_constructors (M : Manager) (H : Heap) (s : StringViewHash) (copy : Bool)
    (hres : M.insertable H s copy) (hres2 : M.insertable H s true) :
    (∃ (a : ImString) (M1 : Manager) (H1 : Heap) (e : Elem),
        ImString.ofView M H s copy = .ok a (M1, H1)
          ∧ ImString.ofRange M H s copy = .ok a (M1, H1)
          ∧ ImString.ofCStr M H s copy = .ok a (M1, H1)
          ∧ a.source ≠ .null ∧ M1.elem a.source = some e)
      ∧ ∃ (a : ImString) (M1 : Manager) (H1 : Heap) (e : Elem),
          ImString.ofStdString M H s = .ok a (M1, H1)
            ∧ a.source ≠ .null ∧ M1.elem a.source = some e := by
  constructor
  · obtain ⟨r, M1, H1, h⟩ := Manager.insert_returns hres
    obtain ⟨hr, _, _⟩ := Manager.insert_ok_ptr h
    obtain ⟨e, hf⟩ := Manager.insert_ok_find_self h
    subst hr
    refine ⟨{ source := .node s.hash }, M1, H1, e, ?_, ?_, ?_, ?_, Manager.elem_of_find hf⟩
    · simp only [ImString.ofView, h]
    · simp only [ImString.ofRange, h]
    · simp only [ImString.ofCStr, h]
    · intro hn
      cases hn
  · obtain ⟨r, M1, H1, h⟩ := Manager.insert_returns hres2
    obtain ⟨hr, _, _⟩ := Manager.insert_ok_ptr h
    obtain ⟨e, hf⟩ := Manager.insert_ok_find_self h
    subst hr
    refine ⟨{ source := .node s.hash }, M1, H1, e, ?_, ?_, Manager.elem_of_find hf⟩
    · simp only [ImString.ofStdString, h]
    · intro hn
      cases hn

/-- Witness of C16 as amended: the content `"cat"` and the freshly constructed
pool. -/
theorem C16_inserting_constructors_witness :
    (∃ (a : ImString) (M1 : Manager) (H1 : Heap) (e : Elem),
        ImString.ofView sampleWorld.manager sampleWorld.heap viewCat false = .ok a (M1, H1)
          ∧ ImString.ofRange sampleWorld.manager sampleWorld.heap viewCat false = .ok a (M1, H1)
          ∧ ImString.ofCStr sampleWorld.manager sampleWorld.heap viewCat false = .ok a (M1, H1)
          ∧ a.source ≠ .null ∧ M1.elem a.source = some e)
      ∧ ∃ (a : ImString) (M1 : Manager) (H1 : Heap) (e : Elem),
          ImString.ofStdString sampleWorld.manager sampleWorld.heap viewCat = .ok a (M1, H1)
            ∧ a.source ≠ .null ∧ M1.elem a.source = some e :=
  C16_inserting_constructors sampleWorld.manager sampleWorld.heap viewCat false
    (Or.inr (Or.inl rfl)) (Or.inr (Or.inr (by decide)))

/-- C17 (key/hash consistency).  With the one hash function of the spec giving both
`hashes::djb2<Hash>("")` and the hash cached by `StringViewHash("")`
(`EmptyLiteral.ofHash`), in every state reached from a freshly constructed `Manager`
each node of the table has as key the hash cached in its string; so for two handles
`a`, `b` whose `source` points to entries of that table, neither `a < b` nor
`b < a` holds exactly when `a.source` and `b.source` are the same entry. -/
theorem C17_key_is_cached_hash (hashOf : List CChar → Hash) (H0 : Heap) (lit : Ptr)
    (W0 W : World) (ops : List Op)
    (hfresh : World.fresh H0 (EmptyLiteral.ofHash hashOf lit) = some W0)
    (hrun : W0.run ops = some W) :
    (∀ n ∈ W.manager.strings.nodes, n.2.string.hash = n.1)
      ∧ ∀ (E : List Elem) (a b : ImString) (ea eb : Elem),
          W.manager.elem a.source = some ea → W.manager.elem b.source = some eb →
          ((ImString.lt W.manager E a b = some false ∧ ImString.lt W.manager E b a = some false)
            ↔ a.source = b.source) := by
  have hinv := World.reachable_hashes hfresh rfl hrun
  refine ⟨hinv, ?_⟩
  intro E a b ea eb ha hb
  obtain ⟨ka, hpa, hma⟩ := Manager.elem_node ha
  obtain ⟨kb, hpb, hmb⟩ := Manager.elem_node hb
  have hha : ea.string.hash = ka := hinv _ hma
  have hhb : eb.string.hash = kb := hinv _ hmb
  have hab : ImString.lt W.manager E a b = some (decide (ka < kb)) := by
    simp only [ImString.lt, Manager.deref_of_elem E ha, Manager.deref_of_elem E hb, hha, hhb]
  have hba : ImString.lt W.manager E b a = some (decide (kb < ka)) := by
    simp only [ImString.lt, Manager.deref_of_elem E ha, Manager.deref_of_elem E hb, hha, hhb]
  rw [hab, hba, hpa, hpb]
  simp only [Option.some.injEq, decide_eq_false_iff_not, ElemPtr.node.injEq]
  constructor
  · rintro ⟨h1, h2⟩
    exact Nat.le_antisymm (Nat.not_lt.mp h2) (Nat.not_lt.mp h1)
  · intro h
    rw [h]
    exact ⟨Nat.lt_irrefl _, Nat.lt_irrefl _⟩

/-- Witness of C17: the pool that holds `""` and `"ab"`, constructed with the hash
function `sampleHash`. -/
theorem C17_key_is_cached_hash_witness :
    (∀ n ∈ sampleWorldAb.manager.strings.nodes, n.2.string.hash = n.1)
      ∧ ∀ (E : List Elem) (a b : ImString) (ea eb : Elem),
          sampleWorldAb.manager.elem a.source = some ea →
          sampleWorldAb.manager.elem b.source = some eb →
          ((ImString.lt sampleWorldAb.manager E a b = some false
              ∧ ImString.lt sampleWorldAb.manager E b a = some false)
            ↔ a.source = b.source) :=
  C17_key_is_cached_hash sampleHash sampleHeap { block := 0, off := 0 } sampleWorld sampleWorldAb
    [.construct viewAb false, .copy 0, .destroy 0] (by decide) (by decide)

/-- C18 (insert frame).  A call `insert(s, copy)` that returns leaves as keys the
keys before together with `s.hash`; the node found under any other key is the
same, with the same `refs`, `owns` and string; an entry that was under `s.hash` is
still there with the same `owns` and string (so the same cached hash) and only
`refs` changed, by the one `++refs`; every array of the memory is unchanged, so every stored string
shows the characters it showed.  A call that ends with `std::bad_alloc` leaves the
pool and the memory as they were. -/
theorem C18_insert_frame (M : Manager) (H : Heap) (s : StringViewHash) (copy : Bool) :
    (∀ (r : ElemPtr) (M1 : Manager) (H1 : Heap), M.insert H s copy = .ok r (M1, H1) →
        (∀ k : Hash, k ∈ M1.strings.keys ↔ (k ∈ M.strings.keys ∨ k = s.hash))
          ∧ (∀ k : Hash, k ≠ s.hash → M1.find k = M.find k)
          ∧ (∀ n : Hash × Elem, M.find s.hash = some n →
              M1.find s.hash
                = some (n.1, { refs := (n.2.refs + 1) % sizeModulus, owns := n.2.owns,
                               string := n.2.string }))
          ∧ H.Extends H1
          ∧ ∀ n ∈ M.strings.nodes, ∀ bs : List CChar,
              n.2.string.bytes H = some bs → n.2.string.bytes H1 = some bs)
      ∧ ∀ st : Manager × Heap, M.insert H s copy = .badAlloc st → st = (M, H) := by
  refine ⟨?_, fun st h => Manager.insert_badAlloc_state h⟩
  intro r M1 H1 h
  have hext := (Manager.insert_ok_ptr h).2.2
  exact ⟨Manager.insert_ok_keys h, fun k hk => Manager.insert_ok_find_other h hk,
    fun n hf => Manager.insert_ok_same h hf, hext, fun n _ bs hb => hext.readN _ _ _ hb⟩

/-- Witness of C18: `"cat"` interned into the pool that holds `""` and `"ab"`. -/
theorem C18_insert_frame_witness :
    ∃ (r : ElemPtr) (M1 : Manager) (H1 : Heap),
      sampleWorldAb.manager.insert sampleWorldAb.heap viewCat true = .ok r (M1, H1)
        ∧ (∀ k : Hash, k ∈ M1.strings.keys ↔
            (k ∈ sampleWorldAb.manager.strings.keys ∨ k = viewCat.hash))
        ∧ (∀ k : Hash, k ≠ viewCat.hash → M1.find k = sampleWorldAb.manager.find k)
        ∧ sampleWorldAb.heap.Extends H1 := by
  obtain ⟨r, M1, H1, h⟩ := Manager.insert_returns
    (Or.inr (Or.inr (by decide)) :
      sampleWorldAb.manager.insertable sampleWorldAb.heap viewCat true)
  have hw := (C18_insert_frame sampleWorldAb.manager sampleWorldAb.heap viewCat true).1 r M1 H1 h
  exact ⟨r, M1, H1, h, hw.1, hw.2.1, hw.2.2.2.1⟩

/-- C19 (concatenation buffer safety), evaluated on the code for the handles of
`"ab"` and `"cat"`: the array `operator+=` allocates has 5 characters and both
copies stay inside it, the terminator is stored at index 6, the bounds-checked
store fails, and the statements of `operator+=` have no defined behaviour. -/
theorem C19_terminator_index :
    (sampleWorld.run [.construct viewAb true, .construct viewCat true]).bind
        (fun W => (W.manager.elem (.node viewAb.hash)).bind fun ea =>
          (W.manager.elem (.node viewCat.hash)).bind fun eb =>
            (ImString.concatBuffer W.heap ea eb).returned.map fun x =>
              ((x.2.blocks[x.1.block]?).map List.length, ImString.terminatorIndex ea eb,
                (x.2.write (x.1.add (ImString.terminatorIndex ea eb)) 0).isSome,
                decide (ImString.addAssignBody sampleHash W.manager W.heap []
                    { source := .node viewAb.hash } { source := .node viewCat.hash }
                      = .undefined)))
      = some (some 5, 6, false, true) := by
  rfl

end evg
